import Mathlib

/-!
Verification of the consensus-participation core of the casper-node repository:
the past-finality-signatures bitmap, the era rewards engine, and the Highway
vertex synchronizer. Each definition is a shallow embedding of the Rust item
of the same name; machine integers are modelled as unbounded naturals (the
modelled quantities never approach their 512-bit or 64-bit bounds in any
statement below), byte values as naturals, and `Ratio<U512>` as a pair of
naturals kept in lowest terms exactly as `num_rational` keeps its ratios.
-/

namespace CasperNode

/-! ### Signature bitmap: src/node/src/types/block/past_finality_signatures.rs

Public keys are opaque ordered values; we model them as naturals. A
`PastFinalitySignatures` value is its inner `Vec<u8>`, modelled as `List Nat`
with every element intended to be a byte. -/

/-- An opaque ordered public key, as used by `BTreeSet<PublicKey>`. -/
abbrev PublicKey := Nat

/-- Structural equality of `Except` values is decidable; this instance
reduces in the kernel, which the concrete-scenario theorems rely on. -/
instance {ε α : Type} [DecidableEq ε] [DecidableEq α] : DecidableEq (Except ε α) :=
  fun a b =>
    match a, b with
    | .ok x, .ok y => decidable_of_iff (x = y) (by simp)
    | .error e, .error f => decidable_of_iff (e = f) (by simp)
    | .ok _, .error _ => isFalse (by simp)
    | .error _, .ok _ => isFalse (by simp)

/-- The sanitization step inside `set_bit_at`: `u8::from(value != 0)`, so
any non-zero bit value counts as 1. -/
def sanitize (value : Nat) : Nat :=
  if value ≠ 0 then 1 else 0

/-- The inner helper of `PastFinalitySignatures::pack`: sanitize the value to
a single bit and shift it to big-endian position `position` of a byte. -/
def set_bit_at (value : Nat) (position : Nat) : Nat :=
  sanitize value <<< (7 - position)

/-- The inner helper of `PastFinalitySignatures::unpack`: the bit of `byte` at
big-endian position `position`, as 0 or 1. -/
def bit_at (byte : Nat) (position : Nat) : Nat :=
  (byte &&& (128 >>> position)) >>> (7 - position)

/-- One byte of `pack`: the fold of `set_bit_at` over an enumerated chunk of
at most eight bits. -/
def packByte (bits_chunk : List Nat) : Nat :=
  bits_chunk.enum.foldl (fun acc pv => acc ||| set_bit_at pv.2 pv.1) 0

/-- The value of a bit chunk placed from big-endian position `i` on: the
closed form of the `packByte` fold, used to reason about it. -/
def packPos : Nat → List Nat → Nat
  | _, [] => 0
  | i, c :: rest => set_bit_at c i ||| packPos (i + 1) rest

/-- `Itertools::chunks(8)`: splits the bit iterator into successive chunks of
eight, the last one possibly shorter (and never empty). -/
def chunks8 : List Nat → List (List Nat)
  | [] => []
  | b0 :: b1 :: b2 :: b3 :: b4 :: b5 :: b6 :: b7 :: rest =>
    [b0, b1, b2, b3, b4, b5, b6, b7] :: chunks8 rest
  | l => [l]

/-- `PastFinalitySignatures::pack`: packs a bit iterator into bytes, eight
bits per byte, big-endian within each byte. -/
def pack (bits : List Nat) : List Nat :=
  (chunks8 bits).map packByte

/-- The eight bits of one byte, in big-endian order, as produced by the
`flat_map` in `PastFinalitySignatures::unpack`. -/
def byteBits (byte : Nat) : List Nat :=
  (List.range 8).map (bit_at byte)

/-- `PastFinalitySignatures::unpack`: the bit sequence of the byte string,
eight bits per byte. -/
def unpack (bytes : List Nat) : List Nat :=
  bytes.flatMap byteBits

/-- `PastFinalitySignatures::from_validator_set`: walk the ordered validator
list, emit bit 1 for the validators contained in `public_keys`, and pack. -/
def from_validator_set (public_keys : Finset PublicKey) (all_validators : List PublicKey) :
    List Nat :=
  pack (all_validators.map (fun key => if key ∈ public_keys then 1 else 0))

/-- Ordered insertion without duplication, as `BTreeSet::insert`. -/
def btreeInsert (x : PublicKey) : List PublicKey → List PublicKey
  | [] => [x]
  | y :: ys => if x < y then x :: y :: ys else if x = y then y :: ys else y :: btreeInsert x ys

/-- `collect::<BTreeSet<_>>()`: insert every element in iteration order. -/
def btreeCollect (l : List PublicKey) : List PublicKey :=
  l.foldl (fun s v => btreeInsert v s) []

/-- `PastFinalitySignatures::into_validator_set`: zip the unpacked bits with
the ordered validator list, keep the validators whose bit is set, and collect
them into an ordered set. -/
def into_validator_set (bytes : List Nat) (all_validators : List PublicKey) :
    List PublicKey :=
  btreeCollect
    (((unpack bytes).zip all_validators).filterMap
      (fun p => if p.1 ≠ 0 then some p.2 else none))

/-! ### Bitmap wire format

Modelled from the spec: the `ToBytes`/`FromBytes` instances for
`PastFinalitySignatures` delegate to `bytesrepr::Bytes`, whose implementation
is outside the extracted sources; per the spec the format is a four-byte
little-endian length prefix followed by the bytes, and `serialized_length`
is four plus the byte count. -/

/-- Modelled from the spec: the four little-endian bytes of a `u32` count. -/
def u32le (n : Nat) : List Nat :=
  [n % 256, n / 256 % 256, n / 65536 % 256, n / 16777216 % 256]

/-- Modelled from the spec: `ToBytes::to_bytes` for the bitmap, a four-byte
little-endian length prefix followed by the bitmap's bytes. -/
def to_bytes (bytes : List Nat) : List Nat :=
  u32le bytes.length ++ bytes

/-- Modelled from the spec: `ToBytes::serialized_length` for the bitmap. -/
def serialized_length (bytes : List Nat) : Nat :=
  4 + bytes.length

/-- Modelled from the spec: `FromBytes::from_bytes` for the bitmap; reads the
four-byte little-endian count, then that many bytes, and returns the value
together with the unconsumed remainder. -/
def from_bytes (input : List Nat) : Option (List Nat × List Nat) :=
  match input with
  | b0 :: b1 :: b2 :: b3 :: rest =>
    let n := b0 + 256 * b1 + 65536 * b2 + 16777216 * b3
    if n ≤ rest.length then some (rest.take n, rest.drop n) else none
  | _ => none

/-! ### Highway synchronizer: src/node/src/components/consensus/protocols/highway/synchronizer.rs

Timestamps and time differences are naturals (milliseconds);
`Timestamp::saturating_sub` is natural subtraction. Peer identifiers are
naturals. -/

/-- Modelled from the spec: a dependency names a unit, an evidence object or
an endorsement object of the protocol state (`highway_core` is outside the
extracted sources); the natural stands for the opaque hash. -/
inductive Dependency where
  | unit : Nat → Dependency
  | evidence : Nat → Dependency
  | endorsement : Nat → Dependency
deriving DecidableEq, Repr

/-- `Dependency::is_unit`. -/
def Dependency.is_unit : Dependency → Bool
  | .unit _ => true
  | _ => false

/-- Modelled from the spec: a consensus vertex, identified by its
`id()` dependency (`highway_core` is outside the extracted sources). -/
structure Vertex where
  id : Dependency
deriving DecidableEq, Repr

/-- A pre-validated vertex wraps a vertex; `inner()` is the identity here. -/
abbrev PreValidatedVertex := Vertex

/-- `PendingVertex`: an incoming pre-validated vertex not yet added to the
protocol state. -/
structure PendingVertex where
  sender : Nat
  pvv : PreValidatedVertex
  time_received : Nat
deriving DecidableEq, Repr

/-- `PendingVertex::expired`: received strictly before the `oldest` cutoff. -/
def PendingVertex.expired (pv : PendingVertex) (oldest : Nat) : Bool :=
  pv.time_received < oldest

/-- The single action identifier used by the synchronizer. -/
def ACTION_ID_VERTEX : Nat := 0

/-- The protocol outcomes the synchronizer emits in the extracted code. -/
inductive ProtocolOutcome where
  | QueueAction : Nat → ProtocolOutcome
deriving DecidableEq, Repr

/-- The synchronizer state: the three queues and the timeout. `BTreeMap`s are
modelled as association lists with pairwise distinct keys. -/
structure Synchronizer where
  vertex_deps : List (Dependency × List PendingVertex)
  vertices_to_be_added_later : List (Nat × List PendingVertex)
  vertices_to_be_added : List PendingVertex
  pending_vertex_timeout : Nat
deriving DecidableEq, Repr

/-- `Synchronizer::new`. -/
def Synchronizer.new (pending_vertex_timeout : Nat) : Synchronizer :=
  ⟨[], [], [], pending_vertex_timeout⟩

/-- Modelled from the spec: the protocol-state oracle the synchronizer
consults (`Highway` itself is outside the extracted sources). -/
structure Highway where
  has_vertex : Vertex → Bool
  has_dependency : Dependency → Bool

/-- `BTreeMap::get` on the association-list model. -/
def mapLookup {K α : Type} [DecidableEq K] (k : K) (m : List (K × α)) : Option α :=
  (m.find? (fun kv => kv.1 = k)).map (fun kv => kv.2)

/-- `BTreeMap::remove` on the association-list model (drops every entry with
the key; on a map with distinct keys this is the single entry). -/
def mapRemove {K α : Type} [DecidableEq K] (k : K) (m : List (K × α)) : List (K × α) :=
  m.filter (fun kv => kv.1 ≠ k)

/-- `BTreeMap::entry(k).or_default().push(v)` on the association-list model. -/
def mapPush {K : Type} [DecidableEq K] (k : K) (v : PendingVertex) :
    List (K × List PendingVertex) → List (K × List PendingVertex)
  | [] => [(k, [v])]
  | kv :: rest => if kv.1 = k then (kv.1, kv.2 ++ [v]) :: rest else kv :: mapPush k v rest

/-- `Synchronizer::remove_expired`: retain the unexpired vertices of every
value, then drop the keys whose value became empty. -/
def remove_expired {K : Type} [DecidableEq K] (map : List (K × List PendingVertex))
    (oldest : Nat) : List (K × List PendingVertex) :=
  (map.map (fun kv => (kv.1, kv.2.filter (fun pv => ! pv.expired oldest)))).filter
    (fun kv => ! kv.2.isEmpty)

/-- `Synchronizer::purge_vertices`: drop expired vertices from all three
queues; the cutoff is `now` minus the timeout, saturating at zero. -/
def Synchronizer.purge_vertices (s : Synchronizer) (now : Nat) : Synchronizer :=
  let oldest := now - s.pending_vertex_timeout
  { s with
    vertices_to_be_added := s.vertices_to_be_added.filter (fun pv => ! pv.expired oldest)
    vertices_to_be_added_later := remove_expired s.vertices_to_be_added_later oldest
    vertex_deps := remove_expired s.vertex_deps oldest }

/-- `Synchronizer::schedule_add_vertices`: extend the ready queue; emit one
`QueueAction` exactly when the queue was empty and became non-empty. -/
def Synchronizer.schedule_add_vertices (s : Synchronizer)
    (pending_vertices : List PendingVertex) : Synchronizer × List ProtocolOutcome :=
  let was_empty := s.vertices_to_be_added.isEmpty
  let s' := { s with vertices_to_be_added := s.vertices_to_be_added ++ pending_vertices }
  if was_empty && ! s'.vertices_to_be_added.isEmpty then
    (s', [ProtocolOutcome.QueueAction ACTION_ID_VERTEX])
  else
    (s', [])

/-- `Synchronizer::add_missing_dependency`. -/
def Synchronizer.add_missing_dependency (s : Synchronizer) (dep : Dependency)
    (pv : PendingVertex) : Synchronizer :=
  { s with vertex_deps := mapPush dep pv s.vertex_deps }

/-- The `loop` of `pop_vertex_to_add`, acting on the reversed ready queue
(`Vec::pop` removes from the back): skip the vertices the protocol state
already has. -/
def popLoop (highway : Highway) : List PendingVertex →
    Option (PendingVertex × List PendingVertex)
  | [] => none
  | pv :: rest => if highway.has_vertex pv.pvv then popLoop highway rest else some (pv, rest)

/-- `Synchronizer::pop_vertex_to_add`: pop entries from the back of the ready
queue until one not yet in the protocol state is found; return it, together
with one `QueueAction` exactly when the queue is still non-empty. -/
def Synchronizer.pop_vertex_to_add (s : Synchronizer) (highway : Highway) :
    Option (PendingVertex × List ProtocolOutcome) × Synchronizer :=
  match popLoop highway s.vertices_to_be_added.reverse with
  | none => (none, { s with vertices_to_be_added := [] })
  | some (pv, rest) =>
    let s' := { s with vertices_to_be_added := rest.reverse }
    if rest.isEmpty then (some (pv, []), s')
    else (some (pv, [ProtocolOutcome.QueueAction ACTION_ID_VERTEX]), s')

/-- One step of the iterator chain inside `do_drop_dependent_vertices`:
follow the dependency only if it is a unit, remove its bucket, and append the
bucket's pending vertices to the removed list. -/
def doDropStep (acc : Synchronizer × List PendingVertex) (dep : Dependency) :
    Synchronizer × List PendingVertex :=
  if dep.is_unit then
    match mapLookup dep acc.1.vertex_deps with
    | some pvs => ({ acc.1 with vertex_deps := mapRemove dep acc.1.vertex_deps }, acc.2 ++ pvs)
    | none => acc
  else acc

/-- `Synchronizer::do_drop_dependent_vertices`: drop the buckets of the unit
dependencies in the worklist, returning the ids and the senders of the
dropped pending vertices. -/
def Synchronizer.do_drop_dependent_vertices (s : Synchronizer) (vertices : List Dependency) :
    Synchronizer × List Dependency × Finset Nat :=
  let r := vertices.foldl doDropStep (s, [])
  (r.1, r.2.map (fun pv => pv.pvv.id), (r.2.map (fun pv => pv.sender)).toFinset)

/-- `Synchronizer::drop_dependent_vertices`: repeatedly drop the buckets of
the unit dependencies in the worklist, feeding the ids of the dropped
vertices back into the worklist, until the worklist is exhausted; return the
union of the senders of all dropped vertices. -/
def Synchronizer.drop_dependent_vertices (s : Synchronizer) (vertices : List Dependency) :
    Synchronizer × Finset Nat :=
  if h : vertices.isEmpty then (s, ∅)
  else
    let r := s.do_drop_dependent_vertices vertices
    let rest := Synchronizer.drop_dependent_vertices r.1 r.2.1
    (rest.1, r.2.2 ∪ rest.2)
termination_by s.vertex_deps.length * 2 + (if vertices.isEmpty then 0 else 1)
decreasing_by
  simp only [Synchronizer.do_drop_dependent_vertices]
  have key : ∀ (vs : List Dependency) (st : Synchronizer) (acc : List PendingVertex),
      (vs.foldl doDropStep (st, acc)).1.vertex_deps.length ≤ st.vertex_deps.length ∧
      ((vs.foldl doDropStep (st, acc)).1.vertex_deps.length = st.vertex_deps.length →
        (vs.foldl doDropStep (st, acc)).2 = acc) := by
    intro vs
    induction vs with
    | nil => intro st acc; simp
    | cons d ds ih =>
      intro st acc
      simp only [List.foldl_cons]
      by_cases hu : d.is_unit
      · cases hl : mapLookup d st.vertex_deps with
        | none => simpa [doDropStep, hu, hl] using ih st acc
        | some pvs =>
          have hmem : ∃ kv ∈ st.vertex_deps, kv.1 = d := by
            rcases hfind : st.vertex_deps.find? (fun kv => kv.1 = d) with _ | kv
            · simp [mapLookup, hfind] at hl
            · exact ⟨kv, List.mem_of_find?_eq_some hfind, by
                have := List.find?_some hfind; simpa using this⟩
          have hshrink : (mapRemove d st.vertex_deps).length < st.vertex_deps.length := by
            rcases hmem with ⟨kv, hkv, hkey⟩
            exact List.length_filter_lt_length_iff_exists.2 ⟨kv, hkv, by simp [hkey]⟩
          have h2 := ih { st with vertex_deps := mapRemove d st.vertex_deps } (acc ++ pvs)
          simp only [doDropStep, hu, hl, if_pos] at *
          constructor
          · exact le_trans h2.1 (le_of_lt hshrink)
          · intro heq
            exfalso
            have := h2.1
            omega
      · simpa [doDropStep, hu] using ih st acc
  rcases key vertices s [] with ⟨hle, hempty⟩
  simp only [if_neg h]
  by_cases hv : ((vertices.foldl doDropStep (s, [])).2 = [])
  · have h2 : (((vertices.foldl doDropStep (s, [])).2.map
        (fun pv => pv.pvv.id)).isEmpty) = true := by simp [hv]
    simp only [h2, if_true]
    omega
  · have hlt : (vertices.foldl doDropStep (s, [])).1.vertex_deps.length <
        s.vertex_deps.length := by
      rcases Nat.lt_or_ge (vertices.foldl doDropStep (s, [])).1.vertex_deps.length
        s.vertex_deps.length with hlt | hge
      · exact hlt
      · exact absurd (hempty (le_antisymm hle hge)) hv
    have h2 : (((vertices.foldl doDropStep (s, [])).2.map
        (fun pv => pv.pvv.id)).isEmpty) = false := by simp [hv]
    simp only [h2, Bool.false_eq_true, if_false]
    omega

/-- Association lists standing for `BTreeMap`s have pairwise distinct keys. -/
def nodupKeys {K α : Type} (m : List (K × α)) : Prop :=
  (m.map Prod.fst).Nodup

/-- The spec's transitive-closure reading of §4.G, stated over the initial
blocked map: a dependency is rooted when it is a unit dependency of the
initial worklist, or the unit id of a pending vertex sitting in the bucket
of a rooted dependency. Only unit dependencies are ever rooted. -/
inductive Rooted (m : List (Dependency × List PendingVertex)) (init : List Dependency) :
    Dependency → Prop where
  | base {d : Dependency} : d ∈ init → d.is_unit = true → Rooted m init d
  | step {d : Dependency} {kv : Dependency × List PendingVertex} {pv : PendingVertex} :
      Rooted m init d → kv ∈ m → kv.1 = d → pv ∈ kv.2 → (pv.pvv.id).is_unit = true →
      Rooted m init pv.pvv.id

/-! ### Rewards engine: src/node/src/components/consensus/era_supervisor/rewards.rs

`U512` is modelled as `Nat` (the computed quantities never approach the
512-bit bound in any statement below), `Ratio<U512>` as a numerator/denominator
pair kept in lowest terms, exactly as `num_rational` keeps every ratio it
constructs in lowest terms. Hashes, digests and opaque engine errors are
naturals. -/

/-- `num_rational::Ratio<U512>`: an unsigned ratio in lowest terms. -/
structure Ratio512 where
  numer : Nat
  denom : Nat
deriving DecidableEq, Repr

/-- `Ratio::new`: reduce to lowest terms. -/
def Ratio512.new (n d : Nat) : Ratio512 :=
  let g := Nat.gcd n d
  ⟨n / g, d / g⟩

/-- Ratio addition (result in lowest terms, as `num_rational` produces). -/
def Ratio512.add (a b : Ratio512) : Ratio512 :=
  Ratio512.new (a.numer * b.denom + b.numer * a.denom) (a.denom * b.denom)

/-- Ratio multiplication (result in lowest terms, as `num_rational` produces). -/
def Ratio512.mul (a b : Ratio512) : Ratio512 :=
  Ratio512.new (a.numer * b.numer) (a.denom * b.denom)

/-- Ratio-by-integer multiplication, `Ratio<U512> * U512`. -/
def Ratio512.mulNat (a : Ratio512) (t : Nat) : Ratio512 :=
  Ratio512.new (a.numer * t) a.denom

/-- `Ratio<U512>` into `U512`: truncating integer division of the numerator
by the denominator. -/
def Ratio512.to_u512 (a : Ratio512) : Nat :=
  a.numer / a.denom

/-- `to_ratio_u512`: widen a `Ratio<u64>`, given by its numerator and
denominator, into a `Ratio<U512>` (`Ratio::new` reduces). -/
def to_ratio_u512 (ratio : Nat × Nat) : Ratio512 :=
  Ratio512.new ratio.1 ratio.2

/-- The block fields the rewards engine consumes (spec §6). The `parent`
hash is absent on blocks without a parent; `rewarded_signatures` is the
ordered list of past-finality-signature bitmaps. -/
structure Block where
  height : Nat
  era_id : Nat
  parent : Option Nat
  proposer : PublicKey
  state_root_hash : Nat
  rewarded_signatures : List (List Nat)
deriving DecidableEq, Repr

/-- The chainspec core-config parameters the rewards engine consumes; the
three proportions are `Ratio<u64>` values given as numerator/denominator. -/
structure CoreConfig where
  signature_rewards_max_delay : Nat
  production_rewards_proportion : Nat × Nat
  collection_rewards_proportion : Nat × Nat
  contribution_rewards_proportion : Nat × Nat
deriving DecidableEq, Repr

/-- The chainspec wrapper around the core config. -/
structure Chainspec where
  core_config : CoreConfig
deriving DecidableEq, Repr

/-- `EraInfo`: the per-era snapshot used by the rewards computation. -/
structure EraInfo where
  weights : List (PublicKey × Nat)
  total_weights : Nat
  reward_per_round : Ratio512
deriving DecidableEq, Repr

/-- `ErasInfo`: a `BTreeMap<EraId, EraInfo>` as a sorted association list. -/
abbrev ErasInfo := List (Nat × EraInfo)

/-- Sorted-association-list insertion keyed by a natural, combining an
existing value with the new one through `f` (`BTreeMap::insert` when `f`
keeps the new value, `entry().and_modify().or_insert()` when `f` adds). -/
def mapInsertWith {α : Type} (f : α → α → α) (k : Nat) (v : α) :
    List (Nat × α) → List (Nat × α)
  | [] => [(k, v)]
  | kv :: rest =>
    if k < kv.1 then (k, v) :: kv :: rest
    else if k = kv.1 then (kv.1, f kv.2 v) :: rest
    else kv :: mapInsertWith f k v rest

/-- `increase_value_for_key`: add `value` to the ledger entry of `key`,
inserting it when absent. -/
def increase_value_for_key (map : List (PublicKey × Ratio512)) (key : PublicKey)
    (value : Ratio512) : List (PublicKey × Ratio512) :=
  mapInsertWith Ratio512.add key value map

/-- `PopulateError`: the fetch-side failures of `ErasInfo::populate`. The
opaque underlying errors (`GetEraValidatorsError`, `engine_state::Error`) are
modelled as naturals; `FailedToFetchBlock` carries the queried block hash and
`NoEraReturned` the queried state root. -/
inductive PopulateError where
  | FailedToFetchBlock : Nat → PopulateError
  | FailedToFetchEra : Nat → PopulateError
  | NoEraReturned : Nat → PopulateError
  | FailedToFetchTotalSupply : Nat → PopulateError
  | FailedToFetchSeigniorageRate : Nat → PopulateError
deriving DecidableEq, Repr

/-- `RewardsError`: the error type of `rewards_for_era`. -/
inductive RewardsError where
  | PopulateError : PopulateError → RewardsError
  | HeightNotInEraRange : Nat → RewardsError
  | EraIdNotInEraRange : Nat → RewardsError
  | ValidatorKeyNotInEra : PublicKey → RewardsError
deriving DecidableEq, Repr

/-- Modelled from the spec (§6): the effect-builder collaborators the rewards
engine awaits. `get_block_from_storage` is keyed by block hash;
`block_at_height` is the per-height content of the storage answer to
`collect_past_blocks_with_metadata` (one `Option Block` per height of the
asked range); the three execution queries are keyed by state root and either
yield a value or an opaque engine error. -/
structure RewardsOracles where
  get_block_from_storage : Nat → Option Block
  block_at_height : Nat → Option Block
  get_era_validators : Nat → Except Nat (List (Nat × List (PublicKey × Nat)))
  get_total_supply : Nat → Except Nat Nat
  get_round_seigniorage_rate : Nat → Except Nat Ratio512

/-- The body of the `stream::iter(block_hashs).then(..)` closure of
`ErasInfo::populate`, for one `(era_id, block_hash)` pair: fetch the block,
read the validator weights, the total supply and the seigniorage rate at its
state root, and build the `EraInfo`; the first failing lookup aborts with its
typed error. -/
def populate_one (o : RewardsOracles) (p : Nat × Nat) : Except PopulateError (Nat × EraInfo) :=
  match o.get_block_from_storage p.2 with
  | none => .error (.FailedToFetchBlock p.2)
  | some block =>
    match o.get_era_validators block.state_root_hash with
    | .error e => .error (.FailedToFetchEra e)
    | .ok eras =>
      match (eras.map (fun kv => kv.2)).head? with
      | none => .error (.NoEraReturned block.state_root_hash)
      | some weights =>
        match o.get_total_supply block.state_root_hash with
        | .error e => .error (.FailedToFetchTotalSupply e)
        | .ok total_supply =>
          match o.get_round_seigniorage_rate block.state_root_hash with
          | .error e => .error (.FailedToFetchSeigniorageRate e)
          | .ok seignorate_rate =>
            .ok (p.1,
              { weights := weights
                total_weights := (weights.map (fun kv => kv.2)).sum
                reward_per_round := seignorate_rate.mulNat total_supply })

/-- `ErasInfo::populate`: process the `(era_id, block_hash)` pairs in order,
short-circuiting at the first failure (`try_collect`), and collect the
successes into the era map. -/
def populate (o : RewardsOracles) (block_hashs : List (Nat × Nat)) :
    Except PopulateError ErasInfo :=
  block_hashs.foldlM
    (fun acc p => (populate_one o p).map (fun v => mapInsertWith (fun _ new => new) v.1 v.2 acc))
    []

/-- `ErasInfo::validator_keys`: the ordered validator keys of an era. -/
def validator_keys (eras_info : ErasInfo) (era_id : Nat) :
    Except RewardsError (List PublicKey) :=
  match mapLookup era_id eras_info with
  | none => .error (.EraIdNotInEraRange era_id)
  | some info => .ok (info.weights.map (fun kv => kv.1))

/-- `ErasInfo::reward_pot`: the per-round reward pot of an era. -/
def reward_pot (eras_info : ErasInfo) (era_id : Nat) : Except RewardsError Ratio512 :=
  match mapLookup era_id eras_info with
  | none => .error (.EraIdNotInEraRange era_id)
  | some info => .ok info.reward_per_round

/-- `ErasInfo::weight_ratio`: a validator's stake weight over the era's total
weight. -/
def weight_ratio (eras_info : ErasInfo) (era_id : Nat) (validator : PublicKey) :
    Except RewardsError Ratio512 :=
  match mapLookup era_id eras_info with
  | none => .error (.EraIdNotInEraRange era_id)
  | some era =>
    match mapLookup validator era.weights with
    | none => .error (.ValidatorKeyNotInEra validator)
    | some weight => .ok (Ratio512.new weight era.total_weights)

/-- `Itertools::group_by(era_id)`: group consecutive blocks with equal era
identifiers. -/
def group_by_era : List Block → List (Nat × List Block)
  | [] => []
  | b :: rest =>
    match group_by_era rest with
    | [] => [(b.era_id, [b])]
    | (e, g) :: gs =>
      if b.era_id = e then (e, b :: g) :: gs else (b.era_id, [b]) :: (e, g) :: gs

/-- The anchor selection of `rewards_for_era`: for each consecutive era
group, pair the era with the parent hash of the group's last block, skipping
groups whose last block has no parent. -/
def era_anchors (blocks : List Block) : List (Nat × Nat) :=
  (group_by_era blocks).filterMap
    (fun eg => ((eg.2.getLast?).bind (fun b => b.parent)).map (fun h => (eg.1, h)))

/-- The batches of `collect_past_blocks_batched`: `step_by(100)` over
`lo..hi`, each start paired with `min hi (start + 100)`. -/
def batchList (lo hi : Nat) : List (Nat × Nat) :=
  (List.range ((hi - lo + 99) / 100)).map
    (fun k => (lo + 100 * k, min hi (lo + 100 * k + 100)))

/-- `collect_past_blocks_batched`: query every height of `lo..hi` in
consecutive batches of at most 100 and concatenate the answers; a height the
store cannot provide stays `None`. -/
def collect_past_blocks_batched (o : RewardsOracles) (lo hi : Nat) : List (Option Block) :=
  (batchList lo hi).flatMap
    (fun b => (List.range' b.1 (b.2 - b.1)).map o.block_at_height)

/-- The cited half-open height range of `rewards_for_era`:
`start_of_era_height.saturating_sub(signature_rewards_max_delay + 1)` up to
`start_of_era_height + relative_height`. -/
def cited_block_range (chainspec : Chainspec) (start_of_era_height relative_height : Nat) :
    Nat × Nat :=
  (start_of_era_height - (chainspec.core_config.signature_rewards_max_delay + 1),
   start_of_era_height + relative_height)

/-- The body of the `for block in blocks_from_current_era` loop of
`rewards_for_era`: credit the proposer with the production and collection
rewards, then walk the block's past-signature bitmaps, locate each signed
block's era, unpack the bitmap against that era's validator keys, and credit
every signer with its contribution reward. -/
def rewards_block_step (eras_info : ErasInfo) (era_id : Nat)
    (cited_blocks : List (Option Block)) (collection_proportion contribution_proportion : Ratio512)
    (production_reward : Ratio512) (result : List (PublicKey × Ratio512)) (block : Block) :
    Except RewardsError (List (PublicKey × Ratio512)) :=
  match weight_ratio eras_info era_id block.proposer with
  | .error e => .error e
  | .ok wr =>
    match reward_pot eras_info era_id with
    | .error e => .error e
    | .ok pot =>
      let collection_reward := (wr.mul collection_proportion).mul pot
      let result := increase_value_for_key result block.proposer
        (collection_reward.add production_reward)
      (block.rewarded_signatures.zip (List.range block.height).reverse).foldlM
        (fun result sig_h =>
          match ((cited_blocks.filterMap id).find?
              (fun b => b.height = sig_h.2)).map (fun b => b.era_id) with
          | none => .error (.HeightNotInEraRange block.height)
          | some signed_block_era =>
            match validator_keys eras_info signed_block_era with
            | .error e => .error e
            | .ok keys =>
              (into_validator_set sig_h.1 keys).foldlM
                (fun result signing_validator =>
                  match weight_ratio eras_info signed_block_era signing_validator with
                  | .error e => .error e
                  | .ok swr =>
                    match reward_pot eras_info signed_block_era with
                    | .error e => .error e
                    | .ok pot' =>
                      .ok (increase_value_for_key result signing_validator
                        ((swr.mul contribution_proportion).mul pot')))
                result)
        result

/-- `rewards_for_era`: fetch the cited blocks, build the era snapshots from
the per-era anchors, accumulate the production, collection and contribution
rewards of every block of the rewarded era as exact ratios, and truncate the
totals to integers. -/
def rewards_for_era (o : RewardsOracles) (era_id start_of_era_height relative_height : Nat)
    (chainspec : Chainspec) : Except RewardsError (List (PublicKey × Nat)) :=
  let range := cited_block_range chainspec start_of_era_height relative_height
  let cited_blocks := collect_past_blocks_batched o range.1 range.2
  match populate o (era_anchors (cited_blocks.filterMap id)) with
  | .error e => .error (.PopulateError e)
  | .ok eras_info =>
    let collection_proportion :=
      to_ratio_u512 chainspec.core_config.collection_rewards_proportion
    let contribution_proportion :=
      to_ratio_u512 chainspec.core_config.contribution_rewards_proportion
    match reward_pot eras_info era_id with
    | .error e => .error e
    | .ok pot =>
      let production_reward :=
        (to_ratio_u512 chainspec.core_config.production_rewards_proportion).mul pot
      let blocks_from_current_era :=
        (cited_blocks.filterMap id).filter (fun b => b.era_id = era_id)
      match blocks_from_current_era.foldlM
          (rewards_block_step eras_info era_id cited_blocks
            collection_proportion contribution_proportion production_reward)
          [] with
      | .error e => .error e
      | .ok full_reward_for_validators =>
        .ok (full_reward_for_validators.map (fun kv => (kv.1, kv.2.to_u512)))

/-! ### Concrete scenarios used by the claims -/

/-- A pending vertex with sender `n`, a unit vertex identified by `n`, and
receipt time 1000, as in spec scenario S3. -/
def sync_v (n : Nat) : PendingVertex :=
  ⟨n, ⟨.unit n⟩, 1000⟩

/-- The five ready vertices of scenario S3. -/
def s3_vertices : List PendingVertex :=
  [sync_v 1, sync_v 2, sync_v 3, sync_v 4, sync_v 5]

/-- A protocol state holding nothing. -/
def empty_highway : Highway :=
  ⟨fun _ => false, fun _ => false⟩

/-- The vertex of scenario S5, received at time 0. -/
def s5_vertex : PendingVertex :=
  ⟨7, ⟨.unit 7⟩, 0⟩

/-- The scenario S5 state: one ready vertex received at time 0, pending
vertex timeout 100. -/
def s5_state : Synchronizer :=
  ⟨[], [], [s5_vertex], 100⟩

/-- A vertex blocked on `unit 1`, itself identified by `unit 2`. -/
def c6_pv1 : PendingVertex := ⟨10, ⟨.unit 2⟩, 0⟩

/-- A vertex blocked on `unit 2`, itself identified by `evidence 3`. -/
def c6_pv2 : PendingVertex := ⟨11, ⟨.evidence 3⟩, 0⟩

/-- A vertex blocked on `evidence 3`. -/
def c6_pv3 : PendingVertex := ⟨12, ⟨.unit 4⟩, 0⟩

/-- A blocked queue with a unit-rooted chain `unit 1 → unit 2 → evidence 3`;
dropping `unit 1` must remove the first two buckets and leave the bucket
keyed by the evidence dependency in place. -/
def c6_state : Synchronizer :=
  ⟨[(.unit 1, [c6_pv1]), (.unit 2, [c6_pv2]), (.evidence 3, [c6_pv3])], [], [], 100⟩

/-- Scenario S6: the validator weights, A = key 0 with weight 1 and B =
key 1 with weight 3. -/
def c2_weights : List (PublicKey × Nat) :=
  [(0, 1), (1, 3)]

/-- Scenario S6: the prior block, height 0 in era 0, stored under hash 100,
with parent hash 90 and state root 10. -/
def c2_block0 : Block :=
  ⟨0, 0, some 90, 0, 10, []⟩

/-- Scenario S6: the ancestor fetched as era 0's anchor, stored under hash
90, with state root 9. -/
def c2_blockG : Block :=
  ⟨0, 0, none, 0, 9, []⟩

/-- Scenario S6: the single block of era 1, height 1, proposed by A, with
parent hash 100 and one past-signature bitmap `[0b1100_0000]` covering
height 0. -/
def c2_block1 : Block :=
  ⟨1, 1, some 100, 0, 11, [[192]]⟩

/-- Scenario S6 collaborators: heights 0 and 1 resolve to the two blocks,
the anchors resolve by hash, both state roots carry the same weights, total
supply 100 and seigniorage rate 1, hence a reward pot of 100 per round. -/
def c2_oracles : RewardsOracles where
  get_block_from_storage := fun h =>
    if h = 100 then some c2_block0 else if h = 90 then some c2_blockG else none
  block_at_height := fun h =>
    if h = 0 then some c2_block0 else if h = 1 then some c2_block1 else none
  get_era_validators := fun root =>
    if root = 9 then .ok [(0, c2_weights)]
    else if root = 10 then .ok [(1, c2_weights)]
    else .error 0
  get_total_supply := fun _ => .ok 100
  get_round_seigniorage_rate := fun _ => .ok (Ratio512.new 1 1)

/-- Scenario S6 chainspec: no signature delay, production proportion 1/2,
collection proportion 1/4, contribution proportion 1/4. -/
def c2_chainspec : Chainspec :=
  ⟨⟨0, (1, 2), (1, 4), (1, 4)⟩⟩

/-- A block whose state root equals its storage hash, with no other content;
used to exhibit two populate runs that fail on different state roots. -/
def c9_block (root : Nat) : Block :=
  ⟨0, 0, none, 0, root, []⟩

/-- Collaborators whose total-supply lookup always fails with the same
opaque engine error, whatever the state root. -/
def c9_oracles : RewardsOracles where
  get_block_from_storage := fun h => some (c9_block h)
  block_at_height := fun _ => none
  get_era_validators := fun _ => .ok [(0, [(0, 1)])]
  get_total_supply := fun _ => .error 7
  get_round_seigniorage_rate := fun _ => .ok (Ratio512.new 1 1)

/-! ### Lemmas about the signature bitmap -/

theorem sanitize_eq_zero_or_one (v : Nat) : sanitize v = 0 ∨ sanitize v = 1 := by
  unfold sanitize; split <;> simp

theorem bit_at_eq_testBit (x p : Nat) (hp : p ≤ 7) :
    bit_at x p = (x.testBit (7 - p)).toNat := by
  have hm : (128 : Nat) >>> p = 2 ^ (7 - p) := by interval_cases p <;> rfl
  rw [bit_at, hm, Nat.and_two_pow, Nat.shiftRight_eq_div_pow,
    Nat.mul_div_cancel _ (Nat.pos_pow_of_pos _ (by omega))]

theorem bit_at_or (x y p : Nat) (hp : p ≤ 7) :
    bit_at (x ||| y) p = bit_at x p ||| bit_at y p := by
  rw [bit_at_eq_testBit _ _ hp, bit_at_eq_testBit _ _ hp, bit_at_eq_testBit _ _ hp,
    Nat.testBit_or]
  cases x.testBit (7 - p) <;> cases y.testBit (7 - p) <;> rfl

theorem testBit_one (m : Nat) : Nat.testBit 1 m = decide (m = 0) := by
  cases m <;> simp [Nat.testBit_succ]

theorem bit_at_set_bit_at (c i p : Nat) (hi : i ≤ 7) (hp : p ≤ 7) :
    bit_at (set_bit_at c i) p = if p = i then sanitize c else 0 := by
  rw [bit_at_eq_testBit _ _ hp, set_bit_at]
  rcases sanitize_eq_zero_or_one c with hs | hs <;> rw [hs]
  · simp only [Nat.zero_shiftLeft, Nat.zero_testBit, Bool.toNat_false]
    split <;> simp [hs]
  · rw [Nat.testBit_shiftLeft, testBit_one]
    rcases eq_or_ne p i with rfl | hne
    · simp
    · have hfalse : (decide (7 - p ≥ 7 - i) && decide (7 - p - (7 - i) = 0)) = false := by
        by_cases hd : (7 : Nat) - p ≥ 7 - i
        · have : 7 - p - (7 - i) ≠ 0 := by omega
          simp [this]
        · simp [hd]
      rw [if_neg hne, hfalse]
      rfl

theorem bit_at_packPos (l : List Nat) :
    ∀ (i p : Nat), i + l.length ≤ 8 → p < 8 →
      bit_at (packPos i l) p =
        if h : i ≤ p ∧ p - i < l.length then sanitize (l.get ⟨p - i, h.2⟩) else 0 := by
  induction l with
  | nil =>
    intro i p _ hp
    rw [packPos, bit_at_eq_testBit _ _ (by omega)]
    simp
  | cons c rest ih =>
    intro i p hlen hp
    rw [packPos, bit_at_or _ _ _ (by omega),
      bit_at_set_bit_at _ _ _ (by simp at hlen; omega) (by omega),
      ih (i + 1) p (by simp at hlen ⊢; omega) hp]
    rcases eq_or_ne p i with rfl | hne
    · have hcond : p ≤ p ∧ p - p < (c :: rest).length := by simp
      have hnot : ¬ (p + 1 ≤ p ∧ p - (p + 1) < rest.length) := by omega
      rw [if_pos rfl, dif_neg hnot, dif_pos hcond, Nat.or_zero]
      simp
    · rw [if_neg hne, Nat.zero_or]
      rcases Nat.lt_or_ge p i with hlt | hge
      · have h1 : ¬ (i + 1 ≤ p ∧ p - (i + 1) < rest.length) := by omega
        have h2 : ¬ (i ≤ p ∧ p - i < (c :: rest).length) := by omega
        rw [dif_neg h1, dif_neg h2]
      · have hgt : i < p := by omega
        by_cases hin : p - (i + 1) < rest.length
        · have h1 : i + 1 ≤ p ∧ p - (i + 1) < rest.length := ⟨by omega, hin⟩
          have h2 : i ≤ p ∧ p - i < (c :: rest).length := by simp; omega
          rw [dif_pos h1, dif_pos h2]
          congr 1
          have hidx : p - i = (p - (i + 1)) + 1 := by omega
          simp [hidx]
        · have h1 : ¬ (i + 1 ≤ p ∧ p - (i + 1) < rest.length) := by omega
          have h2 : ¬ (i ≤ p ∧ p - i < (c :: rest).length) := by simp; omega
          rw [dif_neg h1, dif_neg h2]

theorem packByte_eq_packPos (chunk : List Nat) : packByte chunk = packPos 0 chunk := by
  have general : ∀ (l : List Nat) (i a : Nat),
      (List.enumFrom i l).foldl (fun acc pv => acc ||| set_bit_at pv.2 pv.1) a =
        a ||| packPos i l := by
    intro l
    induction l with
    | nil => intro i a; simp [packPos]
    | cons c rest ih =>
      intro i a
      rw [List.enumFrom_cons, List.foldl_cons, ih, packPos, Nat.or_assoc]
  rw [packByte, List.enum, general, Nat.zero_or]

theorem byteBits_packByte (chunk : List Nat) (hlen : chunk.length ≤ 8) :
    byteBits (packByte chunk) =
      chunk.map sanitize ++ List.replicate (8 - chunk.length) 0 := by
  apply List.ext_getElem
  · simp [byteBits]; omega
  · intro p h1 h2
    have hp : p < 8 := by simpa [byteBits] using h1
    simp only [byteBits, List.getElem_map, List.getElem_range]
    rw [packByte_eq_packPos, bit_at_packPos chunk 0 p (by omega) hp]
    by_cases hin : p < chunk.length
    · have hc : (0 : Nat) ≤ p ∧ p - 0 < chunk.length := by omega
      rw [dif_pos hc, List.getElem_append_left (by simp [hin]), List.getElem_map]
      simp
    · have hc : ¬ ((0 : Nat) ≤ p ∧ p - 0 < chunk.length) := by omega
      rw [dif_neg hc, List.getElem_append_right (by simp; omega), List.getElem_replicate]

theorem chunks8_short (l : List Nat) (hne : l ≠ []) (hlen : l.length < 8) :
    chunks8 l = [l] := by
  match l, hne, hlen with
  | [], hne, _ => exact absurd rfl hne
  | [a], _, _ => rfl
  | [a, b], _, _ => rfl
  | [a, b, c], _, _ => rfl
  | [a, b, c, d], _, _ => rfl
  | [a, b, c, d, e], _, _ => rfl
  | [a, b, c, d, e, f], _, _ => rfl
  | [a, b, c, d, e, f, g], _, _ => rfl
  | (a :: b :: c :: d :: e :: f :: g :: h :: t), _, hlen =>
    exact absurd hlen (by simp)

theorem byteBits_length (b : Nat) : (byteBits b).length = 8 := by
  simp [byteBits]

theorem unpack_length (bytes : List Nat) : (unpack bytes).length = 8 * bytes.length := by
  induction bytes with
  | nil => rfl
  | cons b rest ih =>
    simp only [unpack, List.flatMap_cons, List.length_append, byteBits_length,
      List.length_cons] at *
    omega

theorem unpack_pack (bits : List Nat) :
    unpack (pack bits) =
      bits.map sanitize ++ List.replicate (8 * ((bits.length + 7) / 8) - bits.length) 0 := by
  have main : ∀ (n : Nat) (bs : List Nat), bs.length ≤ n →
      unpack (pack bs) =
        bs.map sanitize ++ List.replicate (8 * ((bs.length + 7) / 8) - bs.length) 0 := by
    intro n
    induction n with
    | zero =>
      intro bs hbs
      have : bs = [] := List.length_eq_zero.1 (by omega)
      subst this
      rfl
    | succ n ih =>
      intro bs hbs
      rcases bs with _ | ⟨b0, _ | ⟨b1, _ | ⟨b2, _ | ⟨b3, _ | ⟨b4, _ | ⟨b5, _ | ⟨b6, _ | ⟨b7, t⟩⟩⟩⟩⟩⟩⟩⟩
      · rfl
      case cons.cons.cons.cons.cons.cons.cons.cons =>
        have hfull : pack (b0 :: b1 :: b2 :: b3 :: b4 :: b5 :: b6 :: b7 :: t) =
            packByte [b0, b1, b2, b3, b4, b5, b6, b7] :: pack t := by
          simp [pack, chunks8]
        rw [hfull]
        have hrec := ih t (by simp at hbs; omega)
        simp only [unpack, List.flatMap_cons] at *
        rw [hrec, byteBits_packByte _ (by simp)]
        simp only [List.map_cons, List.length_cons]
        have hpad : 8 * ((t.length + 8 + 7) / 8) - (t.length + 8) =
            8 * ((t.length + 7) / 8) - t.length := by omega
        rw [show t.length + 1 + 1 + 1 + 1 + 1 + 1 + 1 + 1 = t.length + 8 by omega, hpad]
        norm_num
      all_goals (
        rw [pack, chunks8_short _ (by simp) (by simp)]
        simp only [List.map_cons, List.map_nil, unpack, List.flatMap_cons, List.flatMap_nil,
          List.append_nil]
        rw [byteBits_packByte _ (by simp)]
        norm_num)
  exact main bits.length bits le_rfl

theorem pack_length (bits : List Nat) : (pack bits).length = (bits.length + 7) / 8 := by
  have h := congrArg List.length (unpack_pack bits)
  rw [unpack_length] at h
  simp only [List.length_append, List.length_map, List.length_replicate] at h
  omega

theorem btreeInsert_mem (x v : PublicKey) (s : List PublicKey) :
    x ∈ btreeInsert v s ↔ x = v ∨ x ∈ s := by
  induction s with
  | nil => simp [btreeInsert]
  | cons y ys ih =>
    rw [btreeInsert]
    split
    · simp [List.mem_cons]
    · split
      · rename_i h1 h2
        subst h2
        simp only [List.mem_cons]
        tauto
      · simp only [List.mem_cons, ih]
        tauto

theorem btreeCollect_mem (x : PublicKey) (l : List PublicKey) :
    x ∈ btreeCollect l ↔ x ∈ l := by
  have general : ∀ (l' : List PublicKey) (acc : List PublicKey),
      x ∈ l'.foldl (fun s v => btreeInsert v s) acc ↔ x ∈ acc ∨ x ∈ l' := by
    intro l'
    induction l' with
    | nil => simp
    | cons a as ih =>
      intro acc
      rw [List.foldl_cons, ih, btreeInsert_mem]
      simp only [List.mem_cons]
      tauto
  rw [btreeCollect, general]
  simp

theorem zip_append_left (l₁ : List Nat) :
    ∀ (l₂ : List Nat) (V : List PublicKey), V.length ≤ l₁.length →
      (l₁ ++ l₂).zip V = l₁.zip V := by
  induction l₁ with
  | nil =>
    intro l₂ V h
    have : V = [] := List.length_eq_zero.1 (by simpa using h)
    subst this
    simp
  | cons a as ih =>
    intro l₂ V h
    cases V with
    | nil => simp
    | cons v vs =>
      simp only [List.cons_append, List.zip_cons_cons]
      rw [ih]
      simp only [List.length_cons] at h
      omega

theorem map_snd_zip_eq_take (l₁ : List Nat) :
    ∀ (l₂ : List PublicKey), (l₁.zip l₂).map Prod.snd = l₂.take l₁.length := by
  induction l₁ with
  | nil => intro l₂; simp
  | cons a as ih =>
    intro l₂
    cases l₂ with
    | nil => simp
    | cons v vs => simp [List.zip_cons_cons, ih]

theorem zip_take_right (l₁ : List Nat) :
    ∀ (l₂ : List PublicKey), l₁.zip (l₂.take l₁.length) = l₁.zip l₂ := by
  induction l₁ with
  | nil => intro l₂; simp
  | cons a as ih =>
    intro l₂
    cases l₂ with
    | nil => simp
    | cons v vs => simp [List.zip_cons_cons, ih]

theorem into_from_mem (S : Finset PublicKey) (V : List PublicKey) (x : PublicKey) :
    x ∈ into_validator_set (from_validator_set S V) V ↔ x ∈ S ∧ x ∈ V := by
  rw [into_validator_set, btreeCollect_mem, from_validator_set, unpack_pack]
  have hmap : (V.map (fun key => if key ∈ S then (1 : Nat) else 0)).map sanitize =
      V.map (fun key => if key ∈ S then 1 else 0) := by
    rw [List.map_map]
    apply List.map_congr_left
    intro v _
    by_cases hv : v ∈ S <;> simp [sanitize, hv]
  rw [hmap, zip_append_left _ _ _ (by simp)]
  have hzip : (V.map (fun key => if key ∈ S then (1 : Nat) else 0)).zip V =
      V.map (fun v => (if v ∈ S then (1 : Nat) else 0, v)) := by
    have := List.zip_map' (fun key => if key ∈ S then (1 : Nat) else 0) id V
    simpa using this
  rw [hzip, List.filterMap_map, List.mem_filterMap]
  constructor
  · rintro ⟨v, hv, heq⟩
    by_cases hvS : v ∈ S
    · simp only [Function.comp, hvS, if_pos] at heq
      simp only [ne_eq, one_ne_zero, not_false_eq_true, if_pos, Option.some_inj] at heq
      subst heq
      exact ⟨hvS, hv⟩
    · simp [Function.comp, hvS] at heq
  · rintro ⟨hxS, hxV⟩
    refine ⟨x, hxV, ?_⟩
    simp [Function.comp, hxS]

/-- C1: packing a signer set `S` against an ordered validator list `V` and
unpacking against the same `V` yields exactly the set `S ∩ V`; when
`S ⊆ V`, the round trip returns `S` exactly. -/
theorem claim_C1 (S : Finset PublicKey) (V : List PublicKey) :
    (into_validator_set (from_validator_set S V) V).toFinset = S ∩ V.toFinset ∧
    (S ⊆ V.toFinset → (into_validator_set (from_validator_set S V) V).toFinset = S) := by
  have hset : (into_validator_set (from_validator_set S V) V).toFinset = S ∩ V.toFinset := by
    ext x
    rw [List.mem_toFinset, into_from_mem, Finset.mem_inter, List.mem_toFinset]
  refine ⟨hset, fun hsub => ?_⟩
  rw [hset]
  exact Finset.inter_eq_left.2 (by intro x hx; exact hsub hx)

/-- C1 witness: for `S = {0}` contained in `V = [0, 1]`, the round trip
returns exactly `{0}`. -/
theorem claim_C1_witness :
    (into_validator_set (from_validator_set {0} [0, 1]) [0, 1]).toFinset = ({0} : Finset PublicKey) :=
  (claim_C1 {0} [0, 1]).2 (by decide)

theorem flatMap_getElem?_uniform (f : Nat → List Nat) (hf : ∀ x, (f x).length = 8) :
    ∀ (l : List Nat) (i : Nat),
      (l.flatMap f)[i]? = l[i / 8]?.bind (fun x => (f x)[i % 8]?) := by
  intro l
  induction l with
  | nil => intro i; simp
  | cons x xs ih =>
    intro i
    rw [List.flatMap_cons, List.getElem?_append]
    by_cases hi : i < 8
    · rw [if_pos (by rw [hf]; omega)]
      have h8 : i / 8 = 0 := by omega
      have hm : i % 8 = i := by omega
      rw [h8, hm]
      simp
    · rw [if_neg (by rw [hf]; omega)]
      rw [ih (i - (f x).length)]
      have h1 : (i - (f x).length) / 8 = i / 8 - 1 := by rw [hf]; omega
      have h2 : (i - (f x).length) % 8 = i % 8 := by rw [hf]; omega
      have h3 : i / 8 ≠ 0 := by omega
      rw [h1, h2]
      congr 1
      cases hd : i / 8 with
      | zero => exact absurd hd h3
      | succ k =>
        rw [List.getElem?_cons_succ]
        norm_num

/-- C7: `pack` places the `i`-th bit at big-endian position `7 - (i % 8)` of
byte `i / 8`, zero-pads the final byte, and on the S2 scenario produces the
bytes `[0x26, 0xA0]`, which unpack back to exactly the signer set. -/
theorem claim_C7 :
    (∀ (bits : List Nat) (i : Nat) (h : i < bits.length),
      ((pack bits)[i / 8]?).map (fun byte => Nat.testBit byte (7 - i % 8)) =
        some (decide (bits.get ⟨i, h⟩ ≠ 0))) ∧
    (∀ (bits : List Nat) (i : Nat), bits.length ≤ i → i < 8 * ((bits.length + 7) / 8) →
      (unpack (pack bits))[i]? = some 0) ∧
    from_validator_set {2, 5, 6, 8, 10} (List.range 11) = [38, 160] ∧
    ((38 : Nat) = 0x26 ∧ (160 : Nat) = 0xA0) ∧
    into_validator_set [38, 160] (List.range 11) = [2, 5, 6, 8, 10] := by
  refine ⟨?_, ?_, by decide, by decide, by decide⟩
  · intro bits i h
    have hflat := flatMap_getElem?_uniform byteBits byteBits_length (pack bits) i
    rw [← unpack] at hflat
    have hup := unpack_pack bits
    have hval : (unpack (pack bits))[i]? = some (sanitize (bits.get ⟨i, h⟩)) := by
      rw [hup, List.getElem?_append, if_pos (by simpa using h), List.getElem?_map]
      simp [List.getElem?_eq_getElem h]
    rw [hval] at hflat
    have hmod : i % 8 < 8 := by omega
    cases hbyte : (pack bits)[i / 8]? with
    | none => rw [hbyte] at hflat; simp at hflat
    | some byte =>
      rw [hbyte] at hflat
      have hbb : (byteBits byte)[i % 8]? = some (bit_at byte (i % 8)) := by
        simp [byteBits, List.getElem?_map, List.getElem?_range, hmod]
      have hsan : sanitize (bits.get ⟨i, h⟩) = bit_at byte (i % 8) := by
        have hflat' : some (sanitize (bits.get ⟨i, h⟩)) = (byteBits byte)[i % 8]? := hflat
        rw [hbb] at hflat'
        exact Option.some_inj.1 hflat'
      show some (Nat.testBit byte (7 - i % 8)) = some (decide (bits.get ⟨i, h⟩ ≠ 0))
      congr 1
      rw [bit_at_eq_testBit _ _ (by omega)] at hsan
      have hdec : sanitize (bits.get ⟨i, h⟩) = (decide (bits.get ⟨i, h⟩ ≠ 0)).toNat := by
        by_cases hz : bits.get ⟨i, h⟩ = 0
        · rw [hz]
          simp [sanitize]
        · rw [sanitize, if_pos hz]
          simp only [List.get_eq_getElem] at hz
          simp [hz]
      rw [hdec] at hsan
      have btn : ∀ a b : Bool, a.toNat = b.toNat → a = b := by decide
      exact (btn _ _ hsan).symm
  · intro bits i hge hlt
    rw [unpack_pack, List.getElem?_append, if_neg (by simp; omega), List.getElem?_replicate]
    simp only [List.length_map]
    rw [if_pos (by omega)]

/-- C7 witness: the first bit of `pack [1, 0]` is set: bit 7 of byte 0. -/
theorem claim_C7_witness :
    ((pack [1, 0])[0 / 8]?).map (fun byte => Nat.testBit byte (7 - 0 % 8)) =
      some (decide ((1 : Nat) ≠ 0)) :=
  claim_C7.1 [1, 0] 0 (by decide)

/-- C10: `into_validator_set` only ever returns validators whose index is
below eight times the byte count (without error), and truncating the
validator list at that index does not change the result; bits beyond the
validator list are discarded by the zip. -/
theorem claim_C10 (bytes : List Nat) (V : List PublicKey) :
    (∀ x ∈ into_validator_set bytes V, x ∈ V.take (8 * bytes.length)) ∧
    into_validator_set bytes V = into_validator_set bytes (V.take (8 * bytes.length)) := by
  constructor
  · intro x hx
    rw [into_validator_set, btreeCollect_mem, List.mem_filterMap] at hx
    rcases hx with ⟨p, hp, heq⟩
    have hx2 : x = p.2 := by
      by_cases h0 : p.1 ≠ 0
      · rw [if_pos h0] at heq
        exact (Option.some_inj.1 heq).symm
      · rw [if_neg h0] at heq
        exact absurd heq (by simp)
    subst hx2
    have : p.2 ∈ ((unpack bytes).zip V).map Prod.snd := List.mem_map_of_mem _ hp
    rw [map_snd_zip_eq_take, unpack_length] at this
    exact this
  · rw [into_validator_set, into_validator_set]
    congr 2
    rw [← unpack_length bytes, zip_take_right]

/-- C10 witness: a one-byte bitmap over a three-validator list yields only
validators from the whole (un-truncated) list. -/
theorem claim_C10_witness : (0 : PublicKey) ∈ [0, 1, 2].take (8 * [192].length) :=
  (claim_C10 [192] [0, 1, 2]).1 0 (by decide)

/-- C8: the bitmap serializes as a four-byte little-endian count followed by
the bytes, with `serialized_length` four plus the byte count (hence
`4 + (N + 7) / 8` for a bitmap over `N` validators); deserializing a
serialized value returns it exactly with an empty remainder, and serializing
a successfully deserialized value reproduces the original byte string. -/
theorem claim_C8 (y bs x rest : List Nat) (S : Finset PublicKey) (V : List PublicKey) :
    to_bytes y = u32le y.length ++ y ∧
    serialized_length y = 4 + y.length ∧
    serialized_length (from_validator_set S V) = 4 + (V.length + 7) / 8 ∧
    (y.length < 4294967296 → from_bytes (to_bytes y) = some (y, [])) ∧
    (from_bytes bs = some (x, rest) → (∀ b ∈ bs, b < 256) → to_bytes x ++ rest = bs) := by
  refine ⟨rfl, rfl, ?_, ?_, ?_⟩
  · rw [serialized_length, from_validator_set, pack_length, List.length_map]
  · intro hlen
    rw [to_bytes, u32le]
    simp only [List.cons_append, List.nil_append, from_bytes]
    have hn : y.length % 256 + 256 * (y.length / 256 % 256) + 65536 * (y.length / 65536 % 256) +
        16777216 * (y.length / 16777216 % 256) = y.length := by omega
    rw [hn, if_pos le_rfl, List.take_length, List.drop_length]
  · intro hparse hbytes
    match bs, hparse, hbytes with
    | [], hparse, _ => exact absurd hparse (by simp [from_bytes])
    | [b0], hparse, _ => exact absurd hparse (by simp [from_bytes])
    | [b0, b1], hparse, _ => exact absurd hparse (by simp [from_bytes])
    | [b0, b1, b2], hparse, _ => exact absurd hparse (by simp [from_bytes])
    | (b0 :: b1 :: b2 :: b3 :: rest0), hparse, hbytes =>
      simp only [from_bytes] at hparse
      split at hparse
      · rename_i hle
        simp only [Option.some_inj, Prod.mk.injEq] at hparse
        rcases hparse with ⟨hx, hrest⟩
        subst hx
        subst hrest
        have hb0 : b0 < 256 := hbytes b0 (by simp)
        have hb1 : b1 < 256 := hbytes b1 (by simp)
        have hb2 : b2 < 256 := hbytes b2 (by simp)
        have hb3 : b3 < 256 := hbytes b3 (by simp)
        set n := b0 + 256 * b1 + 65536 * b2 + 16777216 * b3 with hn
        rw [to_bytes, u32le]
        have hlen : (rest0.take n).length = n := by
          rw [List.length_take]
          omega
        rw [hlen]
        have e0 : n % 256 = b0 := by omega
        have e1 : n / 256 % 256 = b1 := by omega
        have e2 : n / 65536 % 256 = b2 := by omega
        have e3 : n / 16777216 % 256 = b3 := by omega
        rw [e0, e1, e2, e3]
        simp only [List.cons_append, List.nil_append, List.append_assoc]
        rw [List.take_append_drop]
      · exact absurd hparse (by simp)

/-- C8 witness: the bitmap `[7]` serializes to `[1, 0, 0, 0, 7]` and parses
back exactly. -/
theorem claim_C8_witness :
    from_bytes (to_bytes [7]) = some ([7], []) ∧ to_bytes [7] ++ [] = [1, 0, 0, 0, 7] :=
  ⟨(claim_C8 [7] [1, 0, 0, 0, 7] [7] [] {0} [0]).2.2.2.1 (by decide),
   (claim_C8 [7] [1, 0, 0, 0, 7] [7] [] {0} [0]).2.2.2.2 (by decide) (by decide)⟩

/-! ### Lemmas about the rewards engine -/

/-- C2: on the S6 scenario — validators A (key 0, weight 1) and B (key 1,
weight 3), total weight 4, reward pot 100 per round, proportions 1/2, 1/4
and 1/4, a one-block era proposed by A carrying the single bitmap
`[0b1100_0000]` over the prior height — `rewards_for_era` returns the map
`{A ↦ 62, B ↦ 18}`, the truncations of the exact totals 125/2 = 62.5 and
75/4 = 18.75. -/
theorem claim_C2 :
    rewards_for_era c2_oracles 1 1 1 c2_chainspec = .ok [(0, 62), (1, 18)] ∧
    Ratio512.to_u512 ⟨125, 2⟩ = 62 ∧ Ratio512.to_u512 ⟨75, 4⟩ = 18 := by
  decide

theorem batchList_cons (lo hi : Nat) (h : lo < hi) :
    batchList lo hi = (lo, min hi (lo + 100)) :: batchList (lo + 100) hi := by
  rw [batchList, batchList]
  have hcount : (hi - lo + 99) / 100 = (hi - (lo + 100) + 99) / 100 + 1 := by omega
  rw [hcount, List.range_succ_eq_map]
  simp only [List.map_cons, List.map_map]
  congr 1
  apply List.map_congr_left
  intro k hk
  simp only [Function.comp_apply, Prod.mk.injEq]
  exact ⟨by omega, by omega⟩

theorem batchList_flat (lo hi : Nat) :
    (batchList lo hi).flatMap (fun b => List.range' b.1 (b.2 - b.1)) =
      List.range' lo (hi - lo) := by
  have main : ∀ (d lo' : Nat), hi - lo' ≤ d →
      (batchList lo' hi).flatMap (fun b => List.range' b.1 (b.2 - b.1)) =
        List.range' lo' (hi - lo') := by
    intro d
    induction d with
    | zero =>
      intro lo' h0
      rw [batchList, show (hi - lo' + 99) / 100 = 0 by omega]
      simp [show hi - lo' = 0 by omega]
    | succ d ih =>
      intro lo' hle
      by_cases hlt : lo' < hi
      · rw [batchList_cons _ _ hlt, List.flatMap_cons, ih (lo' + 100) (by omega)]
        by_cases hbig : hi ≤ lo' + 100
        · have h1 : min hi (lo' + 100) = hi := by omega
          have h2 : hi - (lo' + 100) = 0 := by omega
          rw [h1, h2]
          simp
        · have h1 : min hi (lo' + 100) = lo' + 100 := by omega
          rw [h1, show lo' + 100 - lo' = 100 by omega]
          have happ := List.range'_append lo' 100 (hi - (lo' + 100)) 1
          rw [show lo' + 1 * 100 = lo' + 100 by ring] at happ
          rw [happ]
          congr 1
          omega
      · rw [batchList, show (hi - lo' + 99) / 100 = 0 by omega]
        simp [show hi - lo' = 0 by omega]
  exact main (hi - lo) lo le_rfl

theorem collect_past_blocks_batched_eq (o : RewardsOracles) (lo hi : Nat) :
    collect_past_blocks_batched o lo hi =
      (List.range' lo (hi - lo)).map o.block_at_height := by
  rw [collect_past_blocks_batched, ← batchList_flat lo hi, List.map_flatMap]

/-- C3: the cited range of `rewards_for_era` is exactly the half-open range
from `max 0 (start_of_era_height − signature_rewards_max_delay − 1)` to
`start_of_era_height + relative_height`; `collect_past_blocks_batched` asks
the store for exactly those heights, in consecutive batches of at most 100
heights, and the answer at offset `i` is exactly the store's (possibly
absent) block at height `lo + i`. -/
theorem claim_C3 (o : RewardsOracles) (chainspec : Chainspec)
    (start_of_era_height relative_height : Nat) :
    ((cited_block_range chainspec start_of_era_height relative_height).1 : Int) =
        max 0 ((start_of_era_height : Int) -
          (chainspec.core_config.signature_rewards_max_delay : Int) - 1) ∧
    (cited_block_range chainspec start_of_era_height relative_height).2 =
        start_of_era_height + relative_height ∧
    (∀ lo hi, collect_past_blocks_batched o lo hi =
        (List.range' lo (hi - lo)).map o.block_at_height) ∧
    (∀ lo hi, (batchList lo hi).flatMap (fun b => List.range' b.1 (b.2 - b.1)) =
        List.range' lo (hi - lo)) ∧
    (∀ lo hi b, b ∈ batchList lo hi → b.2 - b.1 ≤ 100) ∧
    (∀ lo hi i, i < hi - lo →
      (collect_past_blocks_batched o lo hi)[i]? = some (o.block_at_height (lo + i))) ∧
    (∀ lo hi i, hi - lo ≤ i → (collect_past_blocks_batched o lo hi)[i]? = none) := by
  refine ⟨?_, rfl, collect_past_blocks_batched_eq o, batchList_flat, ?_, ?_, ?_⟩
  · rw [cited_block_range]
    omega
  · intro lo hi b hb
    rw [batchList] at hb
    rcases List.mem_map.1 hb with ⟨k, _, rfl⟩
    simp only
    omega
  · intro lo hi i hi_lt
    rw [collect_past_blocks_batched_eq, List.getElem?_map, List.getElem?_range' _ _ hi_lt]
    simp
  · intro lo hi i hge
    rw [collect_past_blocks_batched_eq, List.getElem?_map]
    have : (List.range' lo (hi - lo))[i]? = none := by
      rw [List.getElem?_eq_none]
      simpa using hge
    rw [this]
    rfl

/-- C3 witness: on the S6 scenario inputs, fetching the cited range of era 1
yields the stored block at height 0 at offset 0. -/
theorem claim_C3_witness :
    (collect_past_blocks_batched c2_oracles 0 2)[0]? =
      some (c2_oracles.block_at_height (0 + 0)) :=
  (claim_C3 c2_oracles c2_chainspec 1 1).2.2.2.2.2.1 0 2 0 (by decide)

/-! ### Lemmas about `ErasInfo::populate` -/

theorem populate_first_error (o : RewardsOracles) (pre : List (Nat × Nat))
    (p : Nat × Nat) (post : List (Nat × Nat)) (e : PopulateError)
    (hpre : ∀ q ∈ pre, ∃ v, populate_one o q = .ok v)
    (hp : populate_one o p = .error e) :
    populate o (pre ++ p :: post) = .error e := by
  have main : ∀ (pre' : List (Nat × Nat)) (acc : ErasInfo),
      (∀ q ∈ pre', ∃ v, populate_one o q = .ok v) →
      (pre' ++ p :: post).foldlM
        (fun acc q =>
          (populate_one o q).map (fun v => mapInsertWith (fun _ new => new) v.1 v.2 acc))
        acc = .error e := by
    intro pre'
    induction pre' with
    | nil =>
      intro acc _
      rw [List.nil_append, List.foldlM_cons, hp]
      rfl
    | cons q rest ih =>
      intro acc hq
      rcases hq q (by simp) with ⟨v, hv⟩
      rw [List.cons_append, List.foldlM_cons, hv]
      exact ih _ (fun r hr => hq r (by simp [hr]))
  exact main pre [] hpre

/-- C9 (amended): `ErasInfo::populate` aborts at the first failing per-era
lookup with that lookup's typed `PopulateError` — whose constructor names
the failing step — and produces no era map at all on the error path; the
block-fetch failure also names the failing block hash (and the missing-era
failure the queried state root), while the era-validators, total-supply and
seigniorage-rate failures carry only the underlying engine error. -/
theorem claim_C9 (o : RewardsOracles) (pre : List (Nat × Nat)) (p : Nat × Nat)
    (post : List (Nat × Nat)) (e : PopulateError) :
    ((∀ q ∈ pre, ∃ v, populate_one o q = .ok v) → populate_one o p = .error e →
      populate o (pre ++ p :: post) = .error e) ∧
    (o.get_block_from_storage p.2 = none →
      populate_one o p = .error (.FailedToFetchBlock p.2)) := by
  constructor
  · exact populate_first_error o pre p post e
  · intro hnone
    rw [populate_one, hnone]

/-- C9 witness: with a store missing block hash 5, populating the single
pair `(0, 5)` fails with `FailedToFetchBlock 5` and no era map. -/
theorem claim_C9_witness :
    populate
      { c9_oracles with get_block_from_storage := fun _ => none }
      ([] ++ (0, 5) :: []) = .error (.FailedToFetchBlock 5) :=
  (claim_C9 { c9_oracles with get_block_from_storage := fun _ => none }
      [] (0, 5) [] (.FailedToFetchBlock 5)).1
    (by intro q hq; exact absurd hq (by simp))
    ((claim_C9 { c9_oracles with get_block_from_storage := fun _ => none }
      [] (0, 5) [] (.FailedToFetchBlock 5)).2 rfl)

/-- C9 counterexample: the claim that the returned error identifies the
failing hash is false — two populate runs that fail on different hashes
(and different state roots) return the very same `FailedToFetchTotalSupply`
value, so no function of the returned error can recover the failing hash. -/
theorem claim_C9_counterexample :
    populate c9_oracles [(0, 100)] = .error (.FailedToFetchTotalSupply 7) ∧
    populate c9_oracles [(0, 200)] = .error (.FailedToFetchTotalSupply 7) ∧
    (100 : Nat) ≠ 200 ∧
    ¬ ∃ f : PopulateError → Nat,
        ∀ (h : Nat) (e : PopulateError),
          populate c9_oracles [(0, h)] = .error e → f e = h := by
  refine ⟨by decide, by decide, by decide, ?_⟩
  rintro ⟨f, hf⟩
  have h1 := hf 100 (.FailedToFetchTotalSupply 7) (by decide)
  have h2 := hf 200 (.FailedToFetchTotalSupply 7) (by decide)
  omega

/-! ### Lemmas about the synchronizer queues -/

theorem mem_remove_expired {K : Type} [DecidableEq K] (m : List (K × List PendingVertex))
    (oldest : Nat) (k : K) (pv : PendingVertex) :
    (∃ kv ∈ remove_expired m oldest, kv.1 = k ∧ pv ∈ kv.2) ↔
      ¬ pv.expired oldest ∧ ∃ kv ∈ m, kv.1 = k ∧ pv ∈ kv.2 := by
  constructor
  · rintro ⟨kv', hkv', hkey, hpv⟩
    rw [remove_expired, List.mem_filter] at hkv'
    rcases hkv' with ⟨hmap, _⟩
    rcases List.mem_map.1 hmap with ⟨kv, hkv, rfl⟩
    simp only at hkey hpv
    rcases List.mem_filter.1 hpv with ⟨hpv2, hexp⟩
    exact ⟨by simpa using hexp, kv, hkv, hkey, hpv2⟩
  · rintro ⟨hexp, kv, hkv, hkey, hpv⟩
    refine ⟨(kv.1, kv.2.filter (fun pv => ! pv.expired oldest)), ?_, hkey, ?_⟩
    · rw [remove_expired, List.mem_filter]
      constructor
      · exact List.mem_map.2 ⟨kv, hkv, rfl⟩
      · rw [Bool.not_eq_true', List.isEmpty_eq_false_iff_exists_mem]
        exact ⟨pv, List.mem_filter.2 ⟨hpv, by simpa using hexp⟩⟩
    · exact List.mem_filter.2 ⟨hpv, by simpa using hexp⟩

theorem remove_expired_no_empty {K : Type} [DecidableEq K]
    (m : List (K × List PendingVertex)) (oldest : Nat) :
    ∀ kv ∈ remove_expired m oldest, ¬ kv.2.isEmpty := by
  intro kv hkv
  rw [remove_expired, List.mem_filter] at hkv
  simpa using hkv.2

theorem remove_expired_expired {K : Type} [DecidableEq K]
    (m : List (K × List PendingVertex)) (oldest : Nat) :
    ∀ kv ∈ remove_expired m oldest, ∀ pv ∈ kv.2, ¬ pv.expired oldest := by
  intro kv hkv pv hpv
  rw [remove_expired, List.mem_filter] at hkv
  rcases List.mem_map.1 hkv.1 with ⟨kv0, _, rfl⟩
  simp only at hpv
  simpa using (List.mem_filter.1 hpv).2

/-- C4: after `purge_vertices now`, no pending vertex received strictly
before the cutoff `now − pending_vertex_timeout` remains in any of the three
queues, every vertex at or after the cutoff is retained under its key, and
no key of the blocked or deferred maps holds an empty list; concretely, the
S5 vertex received at time 0 with timeout 100 survives `purge 50`, is removed
by `purge 101`, and a subsequent pop yields nothing. -/
theorem claim_C4 (s : Synchronizer) (now : Nat) :
    (∀ pv, (pv ∈ (s.purge_vertices now).vertices_to_be_added ∨
        (∃ kv ∈ (s.purge_vertices now).vertex_deps, pv ∈ kv.2) ∨
        (∃ kv ∈ (s.purge_vertices now).vertices_to_be_added_later, pv ∈ kv.2)) →
      ¬ pv.time_received < now - s.pending_vertex_timeout) ∧
    (∀ pv, now - s.pending_vertex_timeout ≤ pv.time_received →
      ((pv ∈ (s.purge_vertices now).vertices_to_be_added ↔ pv ∈ s.vertices_to_be_added) ∧
       (∀ k, (∃ kv ∈ (s.purge_vertices now).vertex_deps, kv.1 = k ∧ pv ∈ kv.2) ↔
          ∃ kv ∈ s.vertex_deps, kv.1 = k ∧ pv ∈ kv.2) ∧
       (∀ t, (∃ kv ∈ (s.purge_vertices now).vertices_to_be_added_later, kv.1 = t ∧ pv ∈ kv.2) ↔
          ∃ kv ∈ s.vertices_to_be_added_later, kv.1 = t ∧ pv ∈ kv.2))) ∧
    (∀ kv ∈ (s.purge_vertices now).vertex_deps, ¬ kv.2.isEmpty) ∧
    (∀ kv ∈ (s.purge_vertices now).vertices_to_be_added_later, ¬ kv.2.isEmpty) ∧
    (s5_state.purge_vertices 50 = s5_state ∧
     (s5_state.purge_vertices 101).vertices_to_be_added = [] ∧
     ((s5_state.purge_vertices 101).pop_vertex_to_add empty_highway).1 = none) := by
  refine ⟨?_, ?_, ?_, ?_, by decide, by decide, by decide⟩
  · intro pv hmem
    intro hlt
    have hexp : pv.expired (now - s.pending_vertex_timeout) = true := by
      simp [PendingVertex.expired, hlt]
    rcases hmem with hready | hdeps | hlater
    · rw [Synchronizer.purge_vertices] at hready
      simp only at hready
      have := (List.mem_filter.1 hready).2
      rw [hexp] at this
      simp at this
    · rcases hdeps with ⟨kv, hkv, hpv⟩
      have := remove_expired_expired _ _ kv hkv pv hpv
      exact this hexp
    · rcases hlater with ⟨kv, hkv, hpv⟩
      have := remove_expired_expired _ _ kv hkv pv hpv
      exact this hexp
  · intro pv hge
    have hexp : pv.expired (now - s.pending_vertex_timeout) = false := by
      simp [PendingVertex.expired]
      omega
    refine ⟨?_, ?_, ?_⟩
    · rw [Synchronizer.purge_vertices]
      simp only
      rw [List.mem_filter]
      simp [hexp]
    · intro k
      rw [Synchronizer.purge_vertices]
      simp only
      rw [mem_remove_expired]
      simp [hexp]
    · intro t
      rw [Synchronizer.purge_vertices]
      simp only
      rw [mem_remove_expired]
      simp [hexp]
  · exact remove_expired_no_empty _ _
  · exact remove_expired_no_empty _ _

/-- C4 witness: the S5 vertex, received at the cutoff of `purge 50`, is
retained by it. -/
theorem claim_C4_witness :
    s5_vertex ∈ (s5_state.purge_vertices 50).vertices_to_be_added ↔
      s5_vertex ∈ s5_state.vertices_to_be_added :=
  ((claim_C4 s5_state 50).2.1 s5_vertex (by decide)).1

/-- C5: `schedule_add_vertices` returns exactly one `QueueAction` precisely
when the ready queue transitions from empty to non-empty and nothing
otherwise; a successful `pop_vertex_to_add` returns exactly one
`QueueAction` precisely when the queue is still non-empty afterwards;
concretely, scheduling the five S3 vertices emits one action and the five
subsequent pops return all five vertices with an action on each pop but the
last. -/
theorem claim_C5 (s : Synchronizer) (pvs : List PendingVertex) (highway : Highway) :
    ((s.schedule_add_vertices pvs).2 = [ProtocolOutcome.QueueAction ACTION_ID_VERTEX] ↔
      (s.vertices_to_be_added.isEmpty ∧
        ¬ (s.schedule_add_vertices pvs).1.vertices_to_be_added.isEmpty)) ∧
    (¬ (s.vertices_to_be_added.isEmpty ∧
        ¬ (s.schedule_add_vertices pvs).1.vertices_to_be_added.isEmpty) →
      (s.schedule_add_vertices pvs).2 = []) ∧
    (∀ pv outs s', s.pop_vertex_to_add highway = (some (pv, outs), s') →
      ((outs = [ProtocolOutcome.QueueAction ACTION_ID_VERTEX] ↔
        ¬ s'.vertices_to_be_added.isEmpty) ∧
       (outs = [] ↔ s'.vertices_to_be_added.isEmpty))) ∧
    (Synchronizer.schedule_add_vertices (Synchronizer.new 100) s3_vertices =
      (⟨[], [], s3_vertices, 100⟩, [ProtocolOutcome.QueueAction 0]) ∧
     (⟨[], [], s3_vertices, 100⟩ : Synchronizer).pop_vertex_to_add empty_highway =
      (some (sync_v 5, [ProtocolOutcome.QueueAction 0]),
        ⟨[], [], [sync_v 1, sync_v 2, sync_v 3, sync_v 4], 100⟩) ∧
     (⟨[], [], [sync_v 1, sync_v 2, sync_v 3, sync_v 4], 100⟩ :
        Synchronizer).pop_vertex_to_add empty_highway =
      (some (sync_v 4, [ProtocolOutcome.QueueAction 0]),
        ⟨[], [], [sync_v 1, sync_v 2, sync_v 3], 100⟩) ∧
     (⟨[], [], [sync_v 1, sync_v 2, sync_v 3], 100⟩ :
        Synchronizer).pop_vertex_to_add empty_highway =
      (some (sync_v 3, [ProtocolOutcome.QueueAction 0]),
        ⟨[], [], [sync_v 1, sync_v 2], 100⟩) ∧
     (⟨[], [], [sync_v 1, sync_v 2], 100⟩ : Synchronizer).pop_vertex_to_add empty_highway =
      (some (sync_v 2, [ProtocolOutcome.QueueAction 0]), ⟨[], [], [sync_v 1], 100⟩) ∧
     (⟨[], [], [sync_v 1], 100⟩ : Synchronizer).pop_vertex_to_add empty_highway =
      (some (sync_v 1, []), ⟨[], [], [], 100⟩)) := by
  have sched_fst : (s.schedule_add_vertices pvs).1 =
      { s with vertices_to_be_added := s.vertices_to_be_added ++ pvs } := by
    rw [Synchronizer.schedule_add_vertices]
    simp only
    split <;> rfl
  refine ⟨?_, ?_, ?_, by decide⟩
  · rw [sched_fst, Synchronizer.schedule_add_vertices]
    simp only
    split
    case isTrue hcond =>
      simp only [Bool.and_eq_true, Bool.not_eq_true'] at hcond
      simp [hcond.1, hcond.2]
    case isFalse hcond =>
      constructor
      · intro h
        exact absurd h (by simp)
      · rintro ⟨h1, h2⟩
        exfalso
        apply hcond
        simp only [Bool.and_eq_true, Bool.not_eq_true']
        refine ⟨by simpa using h1, ?_⟩
        rw [Bool.eq_false_iff]
        intro hcontra
        exact h2 hcontra
  · intro hncond
    rw [sched_fst] at hncond
    rw [Synchronizer.schedule_add_vertices]
    simp only
    split
    case isTrue hcond =>
      exfalso
      apply hncond
      simp only [Bool.and_eq_true, Bool.not_eq_true'] at hcond
      refine ⟨by simp [hcond.1], ?_⟩
      simp only
      rw [hcond.2]
      simp
    case isFalse hcond => rfl
  · intro pv outs s' hpop
    rw [Synchronizer.pop_vertex_to_add] at hpop
    cases hmatch : popLoop highway s.vertices_to_be_added.reverse with
    | none =>
      rw [hmatch] at hpop
      exact absurd hpop (by simp)
    | some pr =>
      obtain ⟨pv0, rest⟩ := pr
      rw [hmatch] at hpop
      dsimp only at hpop
      by_cases hre : rest.isEmpty
      · rw [if_pos hre] at hpop
        simp only [Prod.mk.injEq, Option.some_inj] at hpop
        obtain ⟨⟨hpv, houts⟩, hs'⟩ := hpop
        subst houts
        subst hs'
        simp only [List.isEmpty_eq_true] at hre
        subst hre
        simp
      · rw [if_neg hre] at hpop
        simp only [Prod.mk.injEq, Option.some_inj] at hpop
        obtain ⟨⟨hpv, houts⟩, hs'⟩ := hpop
        subst houts
        subst hs'
        simp only [List.isEmpty_eq_true] at hre ⊢
        simp [List.isEmpty_eq_true, hre]

/-- C5 witness: popping the single S5 vertex returns it with no further
`QueueAction`, the queue being empty afterwards. -/
theorem claim_C5_witness :
    (([] : List ProtocolOutcome) = [ProtocolOutcome.QueueAction ACTION_ID_VERTEX] ↔
      ¬ (⟨[], [], [], 100⟩ : Synchronizer).vertices_to_be_added.isEmpty) ∧
    (([] : List ProtocolOutcome) = [] ↔
      (⟨[], [], [], 100⟩ : Synchronizer).vertices_to_be_added.isEmpty) :=
  (claim_C5 s5_state [] empty_highway).2.2.1 s5_vertex [] ⟨[], [], [], 100⟩ (by decide)

/-! ### Lemmas about dropping dependent vertices -/

theorem mapLookup_some_mem {K α : Type} [DecidableEq K] {k : K} {m : List (K × α)} {v : α}
    (h : mapLookup k m = some v) : ∃ kv ∈ m, kv.1 = k ∧ kv.2 = v := by
  rw [mapLookup] at h
  cases hf : m.find? (fun kv => kv.1 = k) with
  | none =>
    rw [hf] at h
    exact Option.noConfusion h
  | some kv =>
    rw [hf] at h
    have hv : kv.2 = v := Option.some_inj.1 h
    exact ⟨kv, List.mem_of_find?_eq_some hf, by simpa using List.find?_some hf, hv⟩

theorem mapLookup_none {K α : Type} [DecidableEq K] {k : K} {m : List (K × α)}
    (h : mapLookup k m = none) : ∀ kv ∈ m, kv.1 ≠ k := by
  rw [mapLookup] at h
  cases hf : m.find? (fun kv => kv.1 = k) with
  | some kv =>
    rw [hf] at h
    exact Option.noConfusion h
  | none =>
    intro kv hkv
    have := List.find?_eq_none.1 hf kv hkv
    simpa using this

theorem mem_mapRemove {K α : Type} [DecidableEq K] {k : K} {m : List (K × α)}
    {kv : K × α} : kv ∈ mapRemove k m ↔ kv ∈ m ∧ kv.1 ≠ k := by
  simp [mapRemove, List.mem_filter]

theorem nodupKeys_eq {K α : Type} (m : List (K × α)) (h : nodupKeys m)
    {kv kv' : K × α} (h1 : kv ∈ m) (h2 : kv' ∈ m) (hk : kv.1 = kv'.1) : kv = kv' := by
  induction m with
  | nil => exact absurd h1 (by simp)
  | cons a as ih =>
    rw [nodupKeys, List.map_cons, List.nodup_cons] at h
    rcases List.mem_cons.1 h1 with rfl | h1'
    · rcases List.mem_cons.1 h2 with rfl | h2'
      · rfl
      · exact absurd (List.mem_map_of_mem Prod.fst h2') (hk ▸ h.1)
    · rcases List.mem_cons.1 h2 with rfl | h2'
      · exact absurd (List.mem_map_of_mem Prod.fst h1') (hk.symm ▸ h.1)
      · exact ih h.2 h1' h2'

theorem nodupKeys_mapRemove {K α : Type} [DecidableEq K] (k : K) (m : List (K × α))
    (h : nodupKeys m) : nodupKeys (mapRemove k m) := by
  rw [nodupKeys] at h ⊢
  exact h.sublist (List.Sublist.map _ (List.filter_sublist m))

theorem rooted_unit {m : List (Dependency × List PendingVertex)} {init : List Dependency}
    {d : Dependency} (h : Rooted m init d) : d.is_unit = true := by
  induction h with
  | base _ hu => exact hu
  | step _ _ _ _ hu => exact hu

theorem rooted_nil {m : List (Dependency × List PendingVertex)} {d : Dependency} :
    ¬ Rooted m [] d := by
  intro h
  induction h with
  | base hmem _ => exact absurd hmem (by simp)
  | step _ _ _ _ _ ih => exact ih

theorem doDropFold_char (vs : List Dependency) :
    ∀ (st : Synchronizer) (acc : List PendingVertex), nodupKeys st.vertex_deps →
      (∀ kv, kv ∈ (vs.foldl doDropStep (st, acc)).1.vertex_deps ↔
        kv ∈ st.vertex_deps ∧ ¬ (kv.1.is_unit = true ∧ kv.1 ∈ vs)) ∧
      (∀ pv, pv ∈ (vs.foldl doDropStep (st, acc)).2 ↔
        pv ∈ acc ∨ ∃ kv ∈ st.vertex_deps, kv.1.is_unit = true ∧ kv.1 ∈ vs ∧ pv ∈ kv.2) ∧
      nodupKeys (vs.foldl doDropStep (st, acc)).1.vertex_deps := by
  induction vs with
  | nil =>
    intro st acc hnd
    simp only [List.foldl_nil]
    exact ⟨fun kv => by simp, fun pv => by simp, hnd⟩
  | cons dep rest ih =>
    intro st acc hnd
    simp only [List.foldl_cons]
    by_cases hu : dep.is_unit = true
    · cases hl : mapLookup dep st.vertex_deps with
      | none =>
        have hstep : doDropStep (st, acc) dep = (st, acc) := by
          simp [doDropStep, hu, hl]
        rw [hstep]
        have hnone := mapLookup_none hl
        obtain ⟨hb, hc, hd_⟩ := ih st acc hnd
        refine ⟨?_, ?_, hd_⟩
        · intro kv
          rw [hb kv]
          constructor
          · rintro ⟨h1, h2⟩
            refine ⟨h1, ?_⟩
            rintro ⟨hu2, hmem⟩
            rcases List.mem_cons.1 hmem with heq | hmem2
            · exact hnone kv h1 heq
            · exact h2 ⟨hu2, hmem2⟩
          · rintro ⟨h1, h2⟩
            exact ⟨h1, fun hx => h2 ⟨hx.1, List.mem_cons.2 (Or.inr hx.2)⟩⟩
        · intro pv
          rw [hc pv]
          constructor
          · rintro (hacc | ⟨kv, hkv, hu2, hmem, hpv⟩)
            · exact Or.inl hacc
            · exact Or.inr ⟨kv, hkv, hu2, List.mem_cons.2 (Or.inr hmem), hpv⟩
          · rintro (hacc | ⟨kv, hkv, hu2, hmem, hpv⟩)
            · exact Or.inl hacc
            · rcases List.mem_cons.1 hmem with heq | hmem2
              · exact absurd heq (hnone kv hkv)
              · exact Or.inr ⟨kv, hkv, hu2, hmem2, hpv⟩
      | some pvs =>
        have hstep : doDropStep (st, acc) dep =
            ({ st with vertex_deps := mapRemove dep st.vertex_deps }, acc ++ pvs) := by
          simp [doDropStep, hu, hl]
        rw [hstep]
        obtain ⟨kv0, hkv0, hkey0, hval0⟩ := mapLookup_some_mem hl
        have hnd1 : nodupKeys (mapRemove dep st.vertex_deps) :=
          nodupKeys_mapRemove _ _ hnd
        obtain ⟨hb, hc, hd_⟩ :=
          ih { st with vertex_deps := mapRemove dep st.vertex_deps } (acc ++ pvs) hnd1
        refine ⟨?_, ?_, hd_⟩
        · intro kv
          rw [hb kv]
          show kv ∈ mapRemove dep st.vertex_deps ∧ _ ↔ _
          rw [mem_mapRemove]
          constructor
          · rintro ⟨⟨h1, hne⟩, h2⟩
            refine ⟨h1, ?_⟩
            rintro ⟨hu2, hmem⟩
            rcases List.mem_cons.1 hmem with heq | hmem2
            · exact hne heq
            · exact h2 ⟨hu2, hmem2⟩
          · rintro ⟨h1, h2⟩
            have hne : kv.1 ≠ dep := by
              intro heq
              exact h2 ⟨by rw [heq]; exact hu, List.mem_cons.2 (Or.inl heq)⟩
            exact ⟨⟨h1, hne⟩, fun hx => h2 ⟨hx.1, List.mem_cons.2 (Or.inr hx.2)⟩⟩
        · intro pv
          rw [hc pv]
          constructor
          · rintro (hacc | ⟨kv, hkv, hu2, hmem, hpv⟩)
            · rcases List.mem_append.1 hacc with h | h
              · exact Or.inl h
              · refine Or.inr ⟨kv0, hkv0, ?_, ?_, ?_⟩
                · rw [hkey0]; exact hu
                · rw [hkey0]; exact List.mem_cons.2 (Or.inl rfl)
                · rw [hval0]; exact h
            · have hkv' := mem_mapRemove.1 hkv
              exact Or.inr ⟨kv, hkv'.1, hu2, List.mem_cons.2 (Or.inr hmem), hpv⟩
          · rintro (hacc | ⟨kv, hkv, hu2, hmem, hpv⟩)
            · exact Or.inl (List.mem_append.2 (Or.inl hacc))
            · by_cases hkd : kv.1 = dep
              · have hkveq : kv = kv0 := nodupKeys_eq _ hnd hkv hkv0 (by rw [hkd, hkey0])
                refine Or.inl (List.mem_append.2 (Or.inr ?_))
                rw [← hval0, ← hkveq]
                exact hpv
              · have hmem2 : kv.1 ∈ rest := by
                  rcases List.mem_cons.1 hmem with heq | hmem2
                  · exact absurd heq hkd
                  · exact hmem2
                exact Or.inr ⟨kv, mem_mapRemove.2 ⟨hkv, hkd⟩, hu2, hmem2, hpv⟩
    · have hstep : doDropStep (st, acc) dep = (st, acc) := by
        simp [doDropStep, hu]
      rw [hstep]
      obtain ⟨hb, hc, hd_⟩ := ih st acc hnd
      refine ⟨?_, ?_, hd_⟩
      · intro kv
        rw [hb kv]
        constructor
        · rintro ⟨h1, h2⟩
          refine ⟨h1, ?_⟩
          rintro ⟨hu2, hmem⟩
          rcases List.mem_cons.1 hmem with heq | hmem2
          · rw [heq] at hu2; exact hu hu2
          · exact h2 ⟨hu2, hmem2⟩
        · rintro ⟨h1, h2⟩
          exact ⟨h1, fun hx => h2 ⟨hx.1, List.mem_cons.2 (Or.inr hx.2)⟩⟩
      · intro pv
        rw [hc pv]
        constructor
        · rintro (hacc | ⟨kv, hkv, hu2, hmem, hpv⟩)
          · exact Or.inl hacc
          · exact Or.inr ⟨kv, hkv, hu2, List.mem_cons.2 (Or.inr hmem), hpv⟩
        · rintro (hacc | ⟨kv, hkv, hu2, hmem, hpv⟩)
          · exact Or.inl hacc
          · rcases List.mem_cons.1 hmem with heq | hmem2
            · rw [heq] at hu2; exact absurd hu2 hu
            · exact Or.inr ⟨kv, hkv, hu2, hmem2, hpv⟩

theorem do_drop_deps_mem (s : Synchronizer) (verts : List Dependency)
    (hnd : nodupKeys s.vertex_deps) (kv : Dependency × List PendingVertex) :
    kv ∈ (s.do_drop_dependent_vertices verts).1.vertex_deps ↔
      kv ∈ s.vertex_deps ∧ ¬ (kv.1.is_unit = true ∧ kv.1 ∈ verts) :=
  (doDropFold_char verts s [] hnd).1 kv

theorem do_drop_removed_mem (s : Synchronizer) (verts : List Dependency)
    (hnd : nodupKeys s.vertex_deps) (d : Dependency) :
    d ∈ (s.do_drop_dependent_vertices verts).2.1 ↔
      ∃ pv, (∃ kv ∈ s.vertex_deps, kv.1.is_unit = true ∧ kv.1 ∈ verts ∧ pv ∈ kv.2) ∧
        pv.pvv.id = d := by
  show d ∈ (verts.foldl doDropStep (s, [])).2.map (fun pv => pv.pvv.id) ↔ _
  rw [List.mem_map]
  constructor
  · rintro ⟨pv, hpv, hid⟩
    have := ((doDropFold_char verts s [] hnd).2.1 pv).1 hpv
    rcases this with hfalse | hex
    · exact absurd hfalse (by simp)
    · exact ⟨pv, hex, hid⟩
  · rintro ⟨pv, hex, hid⟩
    exact ⟨pv, ((doDropFold_char verts s [] hnd).2.1 pv).2 (Or.inr hex), hid⟩

theorem do_drop_senders_mem (s : Synchronizer) (verts : List Dependency)
    (hnd : nodupKeys s.vertex_deps) (x : Nat) :
    x ∈ (s.do_drop_dependent_vertices verts).2.2 ↔
      ∃ pv, (∃ kv ∈ s.vertex_deps, kv.1.is_unit = true ∧ kv.1 ∈ verts ∧ pv ∈ kv.2) ∧
        pv.sender = x := by
  show x ∈ ((verts.foldl doDropStep (s, [])).2.map (fun pv => pv.sender)).toFinset ↔ _
  rw [List.mem_toFinset, List.mem_map]
  constructor
  · rintro ⟨pv, hpv, hid⟩
    have := ((doDropFold_char verts s [] hnd).2.1 pv).1 hpv
    rcases this with hfalse | hex
    · exact absurd hfalse (by simp)
    · exact ⟨pv, hex, hid⟩
  · rintro ⟨pv, hex, hid⟩
    exact ⟨pv, ((doDropFold_char verts s [] hnd).2.1 pv).2 (Or.inr hex), hid⟩

theorem do_drop_nodup (s : Synchronizer) (verts : List Dependency)
    (hnd : nodupKeys s.vertex_deps) :
    nodupKeys (s.do_drop_dependent_vertices verts).1.vertex_deps :=
  (doDropFold_char verts s [] hnd).2.2

theorem doDropFold_size (vs : List Dependency) :
    ∀ (st : Synchronizer) (acc : List PendingVertex),
      (vs.foldl doDropStep (st, acc)).1.vertex_deps.length ≤ st.vertex_deps.length ∧
      ((vs.foldl doDropStep (st, acc)).1.vertex_deps.length = st.vertex_deps.length →
        (vs.foldl doDropStep (st, acc)).2 = acc) := by
  induction vs with
  | nil => intro st acc; simp
  | cons d ds ih =>
    intro st acc
    simp only [List.foldl_cons]
    by_cases hu : d.is_unit
    · cases hl : mapLookup d st.vertex_deps with
      | none => simpa [doDropStep, hu, hl] using ih st acc
      | some pvs =>
        have hmem : ∃ kv ∈ st.vertex_deps, kv.1 = d := by
          rcases mapLookup_some_mem hl with ⟨kv, hkv, hkey, _⟩
          exact ⟨kv, hkv, hkey⟩
        have hshrink : (mapRemove d st.vertex_deps).length < st.vertex_deps.length := by
          rcases hmem with ⟨kv, hkv, hkey⟩
          exact List.length_filter_lt_length_iff_exists.2 ⟨kv, hkv, by simp [hkey]⟩
        have h2 := ih { st with vertex_deps := mapRemove d st.vertex_deps } (acc ++ pvs)
        simp only [doDropStep, hu, hl, if_pos] at *
        constructor
        · exact le_trans h2.1 (le_of_lt hshrink)
        · intro heq
          exfalso
          have := h2.1
          omega
    · simpa [doDropStep, hu] using ih st acc

theorem drop_dependent_nil (s : Synchronizer) :
    s.drop_dependent_vertices [] = (s, ∅) := by
  rw [Synchronizer.drop_dependent_vertices]
  rfl

theorem drop_dependent_cons (s : Synchronizer) (verts : List Dependency)
    (h : ¬ verts.isEmpty = true) :
    s.drop_dependent_vertices verts =
      ((Synchronizer.drop_dependent_vertices (s.do_drop_dependent_vertices verts).1
          (s.do_drop_dependent_vertices verts).2.1).1,
       (s.do_drop_dependent_vertices verts).2.2 ∪
         (Synchronizer.drop_dependent_vertices (s.do_drop_dependent_vertices verts).1
           (s.do_drop_dependent_vertices verts).2.1).2) := by
  rw [Synchronizer.drop_dependent_vertices]
  rw [dif_neg h]

theorem rooted_decompose (s : Synchronizer) (verts : List Dependency)
    (hnd : nodupKeys s.vertex_deps) (d : Dependency) :
    Rooted s.vertex_deps verts d ↔
      (d.is_unit = true ∧ d ∈ verts) ∨
        Rooted (s.do_drop_dependent_vertices verts).1.vertex_deps
          (s.do_drop_dependent_vertices verts).2.1 d := by
  constructor
  · intro h
    induction h with
    | @base d' hmem hu => exact Or.inl ⟨hu, hmem⟩
    | @step d' kv pv hr hkv hkey hpv hu ih =>
      by_cases hd : d'.is_unit = true ∧ d' ∈ verts
      · refine Or.inr (Rooted.base ?_ hu)
        rw [do_drop_removed_mem s verts hnd]
        refine ⟨pv, ⟨kv, hkv, ?_, ?_, hpv⟩, rfl⟩
        · rw [hkey]; exact hd.1
        · rw [hkey]; exact hd.2
      · rcases ih with hbase | hrec
        · exact absurd hbase hd
        · refine Or.inr (Rooted.step hrec ?_ hkey hpv hu)
          rw [do_drop_deps_mem s verts hnd]
          exact ⟨hkv, by rw [hkey]; exact hd⟩
  · intro h
    rcases h with ⟨hu, hmem⟩ | hrec
    · exact Rooted.base hmem hu
    · induction hrec with
      | @base d' hmem hu =>
        rw [do_drop_removed_mem s verts hnd] at hmem
        rcases hmem with ⟨pv, ⟨kv, hkv, hu2, hin, hpv⟩, hid⟩
        subst hid
        exact Rooted.step (Rooted.base hin hu2) hkv rfl hpv hu
      | @step d' kv pv hr hkv hkey hpv hu ih =>
        rw [do_drop_deps_mem s verts hnd] at hkv
        exact Rooted.step ih hkv.1 hkey hpv hu

theorem drop_dependent_char (s : Synchronizer) (verts : List Dependency)
    (hnd : nodupKeys s.vertex_deps) :
    (∀ kv, kv ∈ (s.drop_dependent_vertices verts).1.vertex_deps ↔
      kv ∈ s.vertex_deps ∧ ¬ Rooted s.vertex_deps verts kv.1) ∧
    (∀ x, x ∈ (s.drop_dependent_vertices verts).2 ↔
      ∃ kv ∈ s.vertex_deps, Rooted s.vertex_deps verts kv.1 ∧ ∃ pv ∈ kv.2, pv.sender = x) := by
  have main : ∀ (n : Nat) (s' : Synchronizer) (vs : List Dependency),
      2 * s'.vertex_deps.length + (if vs.isEmpty then 0 else 1) ≤ n →
      nodupKeys s'.vertex_deps →
      (∀ kv, kv ∈ (s'.drop_dependent_vertices vs).1.vertex_deps ↔
        kv ∈ s'.vertex_deps ∧ ¬ Rooted s'.vertex_deps vs kv.1) ∧
      (∀ x, x ∈ (s'.drop_dependent_vertices vs).2 ↔
        ∃ kv ∈ s'.vertex_deps, Rooted s'.vertex_deps vs kv.1 ∧
          ∃ pv ∈ kv.2, pv.sender = x) := by
    intro n
    induction n with
    | zero =>
      intro s' vs hm hnd'
      have hvs : vs = [] := by
        rcases vs with _ | ⟨v, vt⟩
        · rfl
        · simp at hm
      subst hvs
      rw [drop_dependent_nil]
      constructor
      · intro kv
        exact ⟨fun h => ⟨h, fun hr => rooted_nil hr⟩, fun h => h.1⟩
      · intro x
        simp only [Finset.not_mem_empty, false_iff]
        rintro ⟨kv, _, hr, _⟩
        exact rooted_nil hr
    | succ n ih =>
      intro s' vs hm hnd'
      by_cases hvs : vs.isEmpty = true
      · have hvs' : vs = [] := by simpa [List.isEmpty_eq_true] using hvs
        subst hvs'
        rw [drop_dependent_nil]
        constructor
        · intro kv
          exact ⟨fun h => ⟨h, fun hr => rooted_nil hr⟩, fun h => h.1⟩
        · intro x
          simp only [Finset.not_mem_empty, false_iff]
          rintro ⟨kv, _, hr, _⟩
          exact rooted_nil hr
      · rw [drop_dependent_cons s' vs hvs]
        have hproj1 : (s'.do_drop_dependent_vertices vs).1 =
            (vs.foldl doDropStep (s', [])).1 := rfl
        have hproj2 : (s'.do_drop_dependent_vertices vs).2.1 =
            (vs.foldl doDropStep (s', [])).2.map (fun pv => pv.pvv.id) := rfl
        have hsize := doDropFold_size vs s' []
        have hmeas : 2 * (s'.do_drop_dependent_vertices vs).1.vertex_deps.length +
            (if (s'.do_drop_dependent_vertices vs).2.1.isEmpty then 0 else 1) ≤ n := by
          by_cases hF : (s'.do_drop_dependent_vertices vs).2.1 = []
          · rw [hF]
            have hle := hsize.1
            rw [← hproj1] at hle
            simp only [List.isEmpty_nil, if_true]
            simp only [if_neg hvs] at hm
            omega
          · have hne : (vs.foldl doDropStep (s', [])).2 ≠ [] := by
              intro hc
              apply hF
              rw [hproj2, hc]
              rfl
            have hlt : (vs.foldl doDropStep (s', [])).1.vertex_deps.length <
                s'.vertex_deps.length := by
              rcases Nat.lt_or_ge (vs.foldl doDropStep (s', [])).1.vertex_deps.length
                s'.vertex_deps.length with hlt | hge
              · exact hlt
              · exact absurd (hsize.2 (le_antisymm hsize.1 hge)) hne
            rw [hproj1]
            simp only [if_neg hvs] at hm
            have hval : (if (s'.do_drop_dependent_vertices vs).2.1.isEmpty then (0 : Nat)
                else 1) ≤ 1 := by split <;> omega
            omega
        obtain ⟨ihd, ihs⟩ := ih (s'.do_drop_dependent_vertices vs).1
          (s'.do_drop_dependent_vertices vs).2.1 hmeas (do_drop_nodup s' vs hnd')
        constructor
        · intro kv
          simp only
          rw [ihd kv, do_drop_deps_mem s' vs hnd' kv, rooted_decompose s' vs hnd' kv.1]
          tauto
        · intro x
          simp only [Finset.mem_union]
          rw [ihs x, do_drop_senders_mem s' vs hnd' x]
          constructor
          · rintro (⟨pv, ⟨kv, hkv, hu2, hin, hpv⟩, hx⟩ | ⟨kv, hkv, hroot, pv, hpv, hx⟩)
            · exact ⟨kv, hkv, (rooted_decompose s' vs hnd' kv.1).2 (Or.inl ⟨hu2, hin⟩),
                pv, hpv, hx⟩
            · have hkv' := (do_drop_deps_mem s' vs hnd' kv).1 hkv
              exact ⟨kv, hkv'.1, (rooted_decompose s' vs hnd' kv.1).2 (Or.inr hroot),
                pv, hpv, hx⟩
          · rintro ⟨kv, hkv, hroot, pv, hpv, hx⟩
            rcases (rooted_decompose s' vs hnd' kv.1).1 hroot with ⟨hu2, hin⟩ | hroot'
            · exact Or.inl ⟨pv, ⟨kv, hkv, hu2, hin, hpv⟩, hx⟩
            · by_cases hkd : kv.1.is_unit = true ∧ kv.1 ∈ vs
              · exact Or.inl ⟨pv, ⟨kv, hkv, hkd.1, hkd.2, hpv⟩, hx⟩
              · exact Or.inr ⟨kv, (do_drop_deps_mem s' vs hnd' kv).2 ⟨hkv, hkd⟩,
                  hroot', pv, hpv, hx⟩
  exact main (2 * s.vertex_deps.length + (if verts.isEmpty then 0 else 1)) s verts
    le_rfl hnd

/-- C6: on a blocked map with distinct keys, `drop_dependent_vertices`
removes exactly the buckets whose key is transitively rooted — through unit
dependencies only — at a unit dependency of the initial worklist, returns
exactly the senders of the pending vertices in the removed buckets, and
leaves every bucket keyed by an evidence or endorsement dependency in
place. -/
theorem claim_C6 (s : Synchronizer) (verts : List Dependency)
    (hnd : nodupKeys s.vertex_deps) :
    (∀ kv, kv ∈ (s.drop_dependent_vertices verts).1.vertex_deps ↔
      kv ∈ s.vertex_deps ∧ ¬ Rooted s.vertex_deps verts kv.1) ∧
    (∀ x, x ∈ (s.drop_dependent_vertices verts).2 ↔
      ∃ kv ∈ s.vertex_deps, Rooted s.vertex_deps verts kv.1 ∧
        ∃ pv ∈ kv.2, pv.sender = x) ∧
    (∀ kv ∈ s.vertex_deps, kv.1.is_unit = false →
      kv ∈ (s.drop_dependent_vertices verts).1.vertex_deps) := by
  obtain ⟨h1, h2⟩ := drop_dependent_char s verts hnd
  refine ⟨h1, h2, ?_⟩
  intro kv hkv hnu
  exact (h1 kv).2 ⟨hkv, fun hr => absurd (rooted_unit hr) (by simp [hnu])⟩

/-- C6 witness: in the chain scenario, the bucket keyed by the evidence
dependency survives dropping `unit 1` even though its key is reachable,
because evidence dependencies are not followed. -/
theorem claim_C6_witness :
    ((Dependency.evidence 3, [c6_pv3]) ∈
      (c6_state.drop_dependent_vertices [Dependency.unit 1]).1.vertex_deps) :=
  (claim_C6 c6_state [Dependency.unit 1] (by rw [nodupKeys]; decide)).2.2
    (Dependency.evidence 3, [c6_pv3]) (by decide) rfl

end CasperNode

